import Mathlib

/-!
Shallow embedding of the core signal-processing routines of `ripyl/decode.py`
(edge extraction, glitch filtering, histogram peak detection, logic-level
estimation, symbol-rate post-processing and the edge-sequence cursors),
together with theorems checking the natural-language specification against it.

Conventions used throughout:
* Python floats are modelled as exact rationals (`ℚ`); `math.sqrt` (whose
  result is not exactly representable) is passed in as an explicit function
  parameter `sqrt : ℚ → ℚ` wherever the code calls it.
* Python generators are modelled as functions from input lists to output
  lists; `StreamError` and a `NameError` caused by reading a never-assigned
  variable are modelled with `Except`.
* The `OnlineStats` accumulator lives in the external `stats` module (it is
  not part of the sources being verified) and is modelled from the spec.
-/

deriving instance DecidableEq for Except

namespace Ripyl

/-- Failure modes of the generator pipelines: `StreamError` on an empty
input stream, and the hypothetical `NameError` that would occur if the
edge extractors ever read their `prev_stable` variable before assigning
it (spec section 9 flags this as an open question). -/
inductive Err where
  | emptyStream
  | undefinedPrevStable
  | valueError
  deriving DecidableEq, Repr

/-- A differential or single-ended edge: `(time, logic level)`. -/
abbrev Edge := ℚ × ℤ

/-- A waveform sample: `(time, value)`. -/
abbrev Sample := ℚ × ℚ

/-! ## Single-ended edge extractor (`find_edges`, decode.py lines 319-415) -/

/-- The three zones of `find_edges`: `ZONE_1_L1` (logic 1),
`ZONE_2_T` (hysteresis transition band), `ZONE_3_L0` (logic 0). -/
inductive FZone where
  | l1
  | t
  | l0
  deriving DecidableEq, Repr, Fintype

/-- `get_sample_zone` closure inside `find_edges`. -/
def fe_get_sample_zone (hyst_top hyst_bot sample : ℚ) : FZone :=
  if sample > hyst_top then .l1
  else if sample > hyst_bot then .t
  else .l0

/-- `is_stable_zone` closure inside `find_edges`. -/
def fe_is_stable_zone : FZone → Bool
  | .l1 => true
  | .l0 => true
  | .t => false

/-- `zone_to_logic_state` closure inside `find_edges` (999 is the
code's sentinel for a non-stable zone). -/
def fe_zone_to_logic_state : FZone → ℤ
  | .l1 => 1
  | .l0 => 0
  | .t => 999

/-- The `state` variable of `find_edges`: `ES_START` or one of the zone
constants the code stores into `state`. -/
inductive FEState where
  | start
  | zone (z : FZone)
  deriving DecidableEq, Repr

/-- The sample loop of `find_edges` (decode.py lines 391-415).
`prev_stable = none` models the variable not having been assigned yet;
reading it in that situation is the `undefinedPrevStable` error. -/
def fe_loop (hyst_top hyst_bot : ℚ) :
    FEState → Option FZone → List Sample → Except Err (List Edge)
  | _, _, [] => .ok []
  | state, prev_stable, (t, sample) :: rest =>
    let zone := fe_get_sample_zone hyst_top hyst_bot sample
    match state with
    | .start =>
      -- Stay in start until we reach one of the stable states
      if fe_is_stable_zone zone then
        fe_loop hyst_top hyst_bot (.zone zone) prev_stable rest
      else
        fe_loop hyst_top hyst_bot .start prev_stable rest
    | .zone s =>
      if fe_is_stable_zone s then
        -- last zone was a stable state
        if fe_is_stable_zone zone then
          if zone ≠ s then
            ((t, fe_zone_to_logic_state zone) :: ·) <$>
              fe_loop hyst_top hyst_bot (.zone zone) prev_stable rest
          else
            fe_loop hyst_top hyst_bot (.zone s) prev_stable rest
        else
          fe_loop hyst_top hyst_bot (.zone zone) (some s) rest
      else
        -- last zone was the transitional state (in hysteresis band)
        if fe_is_stable_zone zone then
          match prev_stable with
          | none => .error .undefinedPrevStable
          | some p =>
            if zone ≠ p then
              ((t, fe_zone_to_logic_state zone) :: ·) <$>
                fe_loop hyst_top hyst_bot (.zone zone) prev_stable rest
            else
              fe_loop hyst_top hyst_bot (.zone zone) prev_stable rest
        else
          fe_loop hyst_top hyst_bot (.zone zone) prev_stable rest

/-- `find_edges(samples, logic, hysteresis)` (decode.py lines 319-415),
with `logic = (logic_low, logic_high)`. -/
def find_edges (logic_low logic_high hysteresis : ℚ) :
    List Sample → Except Err (List Edge)
  | [] => .error .emptyStream
  | (start_time, initial_sample) :: rest =>
    let span := logic_high - logic_low
    let thresh := (logic_high + logic_low) / 2
    let hyst_top := span * (1/2 + hysteresis / 2) + logic_low
    let hyst_bot := span * (1/2 - hysteresis / 2) + logic_low
    ((start_time, if initial_sample > thresh then (1 : ℤ) else 0) :: ·) <$>
      fe_loop hyst_top hyst_bot .start none rest

/-! ## Differential edge extractor (`find_differential_edges`, lines 418-537) -/

/-- The five zones of `find_differential_edges`: `ZONE_1_DP` (differential +1),
`ZONE_2_HT` (high transition band), `ZONE_3_D0` (differential 0),
`ZONE_4_LT` (low transition band), `ZONE_5_DM` (differential -1). -/
inductive DZone where
  | dp
  | ht
  | d0
  | lt
  | dm
  deriving DecidableEq, Repr, Fintype

/-- `get_sample_zone` closure inside `find_differential_edges`. -/
def fde_get_sample_zone (hyst_high_top hyst_high_bot hyst_low_top hyst_low_bot sample : ℚ) :
    DZone :=
  if sample > hyst_high_top then .dp
  else if sample > hyst_high_bot then .ht
  else if sample > hyst_low_top then .d0
  else if sample > hyst_low_bot then .lt
  else .dm

/-- `is_stable_zone` closure inside `find_differential_edges`. -/
def fde_is_stable_zone : DZone → Bool
  | .dp => true
  | .d0 => true
  | .dm => true
  | _ => false

/-- `zone_to_logic_state` closure inside `find_differential_edges`. -/
def fde_zone_to_logic_state : DZone → ℤ
  | .dp => 1
  | .d0 => 0
  | .dm => -1
  | _ => 999

/-- The `state` variable of `find_differential_edges`. -/
inductive FDEState where
  | start
  | zone (z : DZone)
  deriving DecidableEq, Repr

/-- The sample loop of `find_differential_edges` (decode.py lines 513-537);
same structure as `fe_loop` over the 5-zone alphabet. -/
def fde_loop (hht hhb hlt hlb : ℚ) :
    FDEState → Option DZone → List Sample → Except Err (List Edge)
  | _, _, [] => .ok []
  | state, prev_stable, (t, sample) :: rest =>
    let zone := fde_get_sample_zone hht hhb hlt hlb sample
    match state with
    | .start =>
      -- Stay in start until we reach one of the stable states
      if fde_is_stable_zone zone then
        fde_loop hht hhb hlt hlb (.zone zone) prev_stable rest
      else
        fde_loop hht hhb hlt hlb .start prev_stable rest
    | .zone s =>
      if fde_is_stable_zone s then
        -- last zone was a stable state
        if fde_is_stable_zone zone then
          if zone ≠ s then
            ((t, fde_zone_to_logic_state zone) :: ·) <$>
              fde_loop hht hhb hlt hlb (.zone zone) prev_stable rest
          else
            fde_loop hht hhb hlt hlb (.zone s) prev_stable rest
        else
          fde_loop hht hhb hlt hlb (.zone zone) (some s) rest
      else
        -- last zone was a transitional state (in a hysteresis band)
        if fde_is_stable_zone zone then
          match prev_stable with
          | none => .error .undefinedPrevStable
          | some p =>
            if zone ≠ p then
              ((t, fde_zone_to_logic_state zone) :: ·) <$>
                fde_loop hht hhb hlt hlb (.zone zone) prev_stable rest
            else
              fde_loop hht hhb hlt hlb (.zone zone) prev_stable rest
        else
          fde_loop hht hhb hlt hlb (.zone zone) prev_stable rest

/-- `find_differential_edges(samples, logic, hysteresis)` (decode.py
lines 418-537), with `logic = (logic_low, logic_high)`. -/
def find_differential_edges (logic_low logic_high hysteresis : ℚ) :
    List Sample → Except Err (List Edge)
  | [] => .error .emptyStream
  | (start_time, initial_sample) :: rest =>
    let center := (logic_high + logic_low) / 2
    let span_high := logic_high - center
    let span_low := center - logic_low
    let thresh_high := (logic_high + center) / 2
    let thresh_low := (center + logic_low) / 2
    let hht := span_high * (1/2 + hysteresis / 2) + center
    let hhb := span_high * (1/2 - hysteresis / 2) + center
    let hlt := span_low * (1/2 + hysteresis / 2) + logic_low
    let hlb := span_low * (1/2 - hysteresis / 2) + logic_low
    ((start_time,
        if initial_sample > thresh_high then (1 : ℤ)
        else if initial_sample > thresh_low then 0
        else -1) :: ·) <$>
      fde_loop hht hhb hlt hlb .start none rest

/-! ## Glitch filter (`remove_short_diff_0s`, decode.py lines 540-602) -/

/-- The `while True` loop of `remove_short_diff_0s` (decode.py lines 572-602).
Arguments mirror the loop state at the top of an iteration: `prev` is
`prev_edge` (the edge read one iteration ago), `diff_0_start` and
`merged_edge` the variables of the same names; the list holds the edges
not yet read.  The `yield prev_edge` after the loop is the `[prev]` in
the base case. -/
def rsd_loop (min_diff_0_time : ℚ) (prev : Edge) (diff_0_start : Option ℚ)
    (merged_edge : Bool) : List Edge → List Edge
  | [] => [prev]
  | e :: rest =>
    -- `if edge[1] != 0: merged_edge = False`
    let m1 : Bool := if e.2 ≠ 0 then false else merged_edge
    -- step 4 of the loop body: diff_0_start is cleared by step 3 in
    -- every branch where it was set, then set again iff this edge is a 0
    let d0' : Option ℚ := if e.2 = 0 then some e.1 else none
    match diff_0_start with
    | some t0 =>
      if e.1 - t0 < min_diff_0_time then
        -- merge edges and remove differential 0: the synthetic edge is
        -- yielded here and `merged_edge = True` suppresses the final yield
        ((t0 + e.1) / 2, e.2) :: rsd_loop min_diff_0_time e d0' true rest
      else
        prev :: rsd_loop min_diff_0_time e d0' false rest
    | none =>
      if m1 then
        rsd_loop min_diff_0_time e d0' m1 rest
      else
        prev :: rsd_loop min_diff_0_time e d0' m1 rest

/-- `remove_short_diff_0s(diff_edges, min_diff_0_time)` (decode.py
lines 540-602). -/
def remove_short_diff_0s (min_diff_0_time : ℚ) :
    List Edge → Except Err (List Edge)
  | [] => .error .emptyStream
  | e :: rest => .ok (rsd_loop min_diff_0_time e none false rest)

/-- The invariant claimed for edge streams: every element after the first
carries a state different from the immediately preceding element's state. -/
def edge_states_alternate (l : List Edge) : Prop :=
  List.Chain' (fun a b => a.2 ≠ b.2) l

instance (l : List Edge) : Decidable (edge_states_alternate l) :=
  inferInstanceAs (Decidable (List.Chain' (fun a b : Edge => a.2 ≠ b.2) l))

/-- The logic level against which the next loop emission of `find_edges` is
compared: the level of the current stable state, or of the recorded previous
stable state while inside the transition band. -/
def fe_ref : FEState → Option FZone → Option ℤ
  | .start, _ => none
  | .zone s, prev =>
    if fe_is_stable_zone s then some (fe_zone_to_logic_state s)
    else prev.map fe_zone_to_logic_state

/-- Differential analogue of `fe_ref`. -/
def fde_ref : FDEState → Option DZone → Option ℤ
  | .start, _ => none
  | .zone s, prev =>
    if fde_is_stable_zone s then some (fde_zone_to_logic_state s)
    else prev.map fde_zone_to_logic_state

/-- Loop invariant of `fe_loop`: `prev_stable` has been assigned whenever
the machine sits in the transition zone. -/
def fe_inv : FEState → Option FZone → Bool
  | .zone .t, none => false
  | _, _ => true

/-- Loop invariant of `fde_loop`: `prev_stable` has been assigned whenever
the machine sits in one of the two transition zones. -/
def fde_inv : FDEState → Option DZone → Bool
  | .zone .ht, none => false
  | .zone .lt, none => false
  | _, _ => true

/-! ## Online statistics (external `stats` module) -/

/-- Modelled from the spec: the external `OnlineStats` accumulator of the
`stats` module (not part of the sources under verification; spec section 2
describes it as a running mean/variance with `accumulate(value)`, `mean()`,
`std(correction)` and `reset()`).  It is modelled as the count, sum and sum
of squares of the accumulated values, with `mean` and `std` given by the
standard formulas; the `ℚ` convention `x / 0 = 0` covers the empty
accumulator. -/
structure OnlineStats where
  n : ℕ
  s : ℚ
  sq : ℚ
  deriving DecidableEq, Repr

def OnlineStats.empty : OnlineStats := ⟨0, 0, 0⟩

def OnlineStats.accumulate (os : OnlineStats) (x : ℚ) : OnlineStats :=
  ⟨os.n + 1, os.s + x, os.sq + x * x⟩

def OnlineStats.mean (os : OnlineStats) : ℚ := os.s / os.n

def OnlineStats.variance (os : OnlineStats) (ddof : ℚ) : ℚ :=
  (os.sq - os.s * os.s / os.n) / ((os.n : ℚ) - ddof)

def OnlineStats.std (os : OnlineStats) (sqrt : ℚ → ℚ) (ddof : ℚ) : ℚ :=
  sqrt (os.variance ddof)

/-! ## Peak detector (`find_hist_peaks`, decode.py lines 124-236) -/

/-- `pop_mean` of `find_hist_peaks`: mean of all populated bins
(decode.py lines 147-152). -/
def hist_pop_mean (hist : List ℚ) : ℚ :=
  (hist.foldl (fun os b => if 0 < b then os.accumulate b else os)
    OnlineStats.empty).mean

/-- `t1` of `find_hist_peaks` (decode.py line 154); `1.5` and `2.0` are
exact in `ℚ`. -/
def hist_t1 (sqrt : ℚ → ℚ) (hist : List ℚ) : ℚ :=
  hist_pop_mean hist + 2 * sqrt (hist_pop_mean hist)

/-- `t2` of `find_hist_peaks` (decode.py lines 159-164): the accumulator is
reset and refilled with the positive bins below `t1`. -/
def hist_t2 (sqrt : ℚ → ℚ) (hist : List ℚ) : ℚ :=
  hist_pop_mean hist + 3/2 *
    ((hist.foldl
        (fun os b => if 0 < b ∧ b < hist_t1 sqrt hist then os.accumulate b else os)
        OnlineStats.empty).std sqrt 1)

/-- The scan loop of `find_hist_peaks` (decode.py lines 181-197): `i` is the
loop index, `in_peak` the state (`NEED_PEAK` / `IN_PEAK`), `peak_start` the
variable of the same name (sentinel -1 before any peak opens).  Returns the
closed peaks in order together with the final value of `peak_start`. -/
def scan_go (t2 : ℚ) : List ℚ → ℤ → Bool → ℤ → List (ℤ × ℤ) × ℤ
  | [], _, _, peak_start => ([], peak_start)
  | b :: rest, i, in_peak, peak_start =>
    if in_peak then
      if b < t2 then
        let r := scan_go t2 rest (i + 1) false peak_start
        ((peak_start, i) :: r.1, r.2)
      else
        scan_go t2 rest (i + 1) true peak_start
    else
      if b ≥ t2 then
        scan_go t2 rest (i + 1) true i
      else
        scan_go t2 rest (i + 1) false peak_start

/-- The scan stage of `find_hist_peaks` including the trailing special case
`if peak_start == len(hist)-1` (decode.py lines 181-201). -/
def scan_peaks (t2 : ℚ) (hist : List ℚ) : List (ℤ × ℤ) :=
  let r := scan_go t2 hist 0 false (-1)
  if r.2 = (hist.length : ℤ) - 1 then r.1 ++ [(r.2, r.2)] else r.1

/-- The merge/suppress loop of `find_hist_peaks` (decode.py lines 211-229),
sequentialized: it carries the previous peak (whose `merged` flag is only
decided when the current peak is examined) and that peak's `suppressed`
flag, and emits one annotated entry `(peak, merged, suppressed)` per peak. -/
def fp_go (merge_gap suppress_gap : ℚ) :
    (ℤ × ℤ) → Bool → List (ℤ × ℤ) → List ((ℤ × ℤ) × Bool × Bool)
  | prev, prev_supp, [] => [(prev, false, prev_supp)]
  | prev, prev_supp, (s, e) :: rest =>
    let gap : ℚ := ((s - prev.2 : ℤ) : ℚ)
    if gap < merge_gap then
      (prev, true, prev_supp) :: fp_go merge_gap suppress_gap (prev.1, e) false rest
    else if merge_gap ≤ gap ∧ gap < suppress_gap then
      (prev, false, prev_supp) :: fp_go merge_gap suppress_gap (s, e) true rest
    else
      (prev, false, prev_supp) :: fp_go merge_gap suppress_gap (s, e) false rest

/-- The merge/suppress post-processing stage of `find_hist_peaks`
(decode.py lines 203-236); `nbins` is `len(hist)`.  The first peak enters
with an artificial gap of `2 * suppress_gap`, which neither merges nor
suppresses it. -/
def filter_peaks (nbins : ℕ) (peaks : List (ℤ × ℤ)) : List (ℤ × ℤ) :=
  let merge_gap : ℚ := (nbins : ℚ) / 100
  let suppress_gap : ℚ := (nbins : ℚ) / 50
  match peaks with
  | [] => []
  | p :: rest =>
    ((fp_go merge_gap suppress_gap p false rest).filter
        (fun x => !x.2.1 && !x.2.2)).map (fun x => x.1)

/-- `find_hist_peaks(hist)` (decode.py lines 124-236), with `math.sqrt`
passed in as `sqrt`. -/
def find_hist_peaks (sqrt : ℚ → ℚ) (hist : List ℚ) : List (ℤ × ℤ) :=
  filter_peaks hist.length (scan_peaks (hist_t2 sqrt hist) hist)

/-! ### Claim-side formulations for the peak detector -/

/-- Claim-side (C4): arithmetic mean of a list. -/
def list_mean (l : List ℚ) : ℚ := l.sum / l.length

/-- Claim-side (C4): the `t2` threshold as the spec words it: `pop_mean` is
the mean of the bins with count > 0, `t1 = pop_mean + 2·sqrt(pop_mean)`,
the standard deviation is Bessel-corrected (`ddof = 1`) over the positive
bins below `t1`, and `t2 = pop_mean + 1.5·std`. -/
def hist_t2_spec (sqrt : ℚ → ℚ) (hist : List ℚ) : ℚ :=
  let pos := hist.filter (fun b => decide (0 < b))
  let pop_mean := list_mean pos
  let t1 := pop_mean + 2 * sqrt pop_mean
  let under := hist.filter (fun b => decide (0 < b) && decide (b < t1))
  pop_mean + 3/2 *
    sqrt ((under.map (fun x => (x - list_mean under) ^ 2)).sum / ((under.length : ℚ) - 1))

/-- Claim-side (C4): the two-state scan as the claim words it, with natural
bin indices and an `Option` for the currently open peak (no sentinel). -/
def scan_spec_go (t2 : ℚ) : List ℚ → ℕ → Option ℕ → List (ℕ × ℕ) × Option ℕ
  | [], _, cur => ([], cur)
  | b :: rest, i, cur =>
    match cur with
    | some ps =>
      if b < t2 then
        let r := scan_spec_go t2 rest (i + 1) none
        ((ps, i) :: r.1, r.2)
      else
        scan_spec_go t2 rest (i + 1) (some ps)
    | none =>
      if b ≥ t2 then
        scan_spec_go t2 rest (i + 1) (some i)
      else
        scan_spec_go t2 rest (i + 1) none

/-- Claim-side (C4): scanned peaks; a peak opened at the last bin and never
closed is emitted as the single-bin peak at the final index. -/
def scan_peaks_spec (t2 : ℚ) (hist : List ℚ) : List (ℕ × ℕ) :=
  let r := scan_spec_go t2 hist 0 none
  match r.2 with
  | some ps => if ps = hist.length - 1 then r.1 ++ [(ps, ps)] else r.1
  | none => r.1

/-! ## Logic-level estimator (`find_bot_top_hist_peaks`, lines 42-121) -/

/-- `numpy.cumsum`, running from `acc`. -/
def cumsum_from (acc : ℚ) : List ℚ → List ℚ
  | [] => []
  | x :: rest => (acc + x) :: cumsum_from (acc + x) rest

/-- `numpy.cumsum`. -/
def cumsum (l : List ℚ) : List ℚ := cumsum_from 0 l

/-- Helper for `fbt_mid_ix`: `i` is the enumeration index. -/
def fbt_mid_ix_go (mid_pop : ℚ) : ℕ → List ℚ → ℕ
  | _, [] => 0
  | i, x :: rest => if x ≥ mid_pop then i else fbt_mid_ix_go mid_pop (i + 1) rest

/-- The `mid_ix` loop of `find_bot_top_hist_peaks` (decode.py lines
110-114): the first index whose cumulative sum reaches `mid_pop`, with the
Python default `mid_ix = 0` when no element qualifies. -/
def fbt_mid_ix (mid_pop : ℚ) (cs : List ℚ) : ℕ := fbt_mid_ix_go mid_pop 0 cs

/-- The per-peak part of the `for p in end_peaks` loop of
`find_bot_top_hist_peaks` (decode.py lines 104-119): slice the histogram to
the peak's bins, build the cumulative sum, floor-halve the total
(`cs[-1] // 2`), find the first bin reaching it and return that bin's
center.  (Out-of-range accesses, impossible for the peaks produced on a
nonempty histogram, are modelled with defaults.) -/
def peak_center (hist bin_centers : List ℚ) (p : ℤ × ℤ) : ℚ :=
  let hslice := (hist.take (p.2 + 1).toNat).drop p.1.toNat
  let cs := cumsum hslice
  let mid_pop : ℚ := ((⌊cs.getLastD 0 / 2⌋ : ℤ) : ℚ)
  let mid_ix := fbt_mid_ix mid_pop cs
  bin_centers.getD (p.1.toNat + mid_ix) 0

/-- `find_bot_top_hist_peaks(samples, bins, use_kde)` (decode.py lines
42-121), modelled from the point where the histogram `hist` and its bin
centers are available (their construction by `numpy.histogram` or a scipy
Gaussian KDE is external numerics).  `none` is the fewer-than-two-peaks
"no result". -/
def find_bot_top_hist_peaks (sqrt : ℚ → ℚ) (hist bin_centers : List ℚ) :
    Option (ℚ × ℚ) :=
  let peaks := find_hist_peaks sqrt hist
  if peaks.length < 2 then none
  else
    let bot := peak_center hist bin_centers (peaks.headD (0, 0))
    let top := peak_center hist bin_centers (peaks.getLastD (0, 0))
    some (min bot top, max bot top)

/-- Relation between the code's sentinel-based `peak_start` value and the
claim-side open-peak `Option`, at loop position `iN`: while no peak is open
the sentinel is still -1 or belongs to a peak closed at least two positions
back (so it can never equal `len - 1` at the end of the scan). -/
def sentinel_rel (iN : ℕ) (ps : ℤ) (cur : Option ℕ) : Prop :=
  match cur with
  | some s => ps = (s : ℤ) ∧ s < iN
  | none => ps = -1 ∨ ps + 2 ≤ (iN : ℤ)

/-- Claim-side (C5): `gap = start(i) - end(i-1)` over the original scanned
peak list (meaningful for `i ≥ 1`). -/
def peak_gap (peaks : List (ℤ × ℤ)) (i : ℕ) : ℚ :=
  (((peaks.getD i (0, 0)).1 - (peaks.getD (i - 1) (0, 0)).2 : ℤ) : ℚ)

/-- Claim-side (C5): peak `i` is merged-away iff the next peak exists and its
gap is below `merge_gap`. -/
def peak_merged (mg : ℚ) (peaks : List (ℤ × ℤ)) (i : ℕ) : Prop :=
  i + 1 < peaks.length ∧ peak_gap peaks (i + 1) < mg

instance (mg : ℚ) (peaks : List (ℤ × ℤ)) (i : ℕ) : Decidable (peak_merged mg peaks i) :=
  inferInstanceAs (Decidable (i + 1 < peaks.length ∧ peak_gap peaks (i + 1) < mg))

/-- Claim-side (C5): peak `i` is suppressed iff `i > 0` and its gap lies in
`[merge_gap, suppress_gap)`; the first peak is never suppressed. -/
def peak_suppressed (mg sg : ℚ) (peaks : List (ℤ × ℤ)) (i : ℕ) : Prop :=
  0 < i ∧ mg ≤ peak_gap peaks i ∧ peak_gap peaks i < sg

instance (mg sg : ℚ) (peaks : List (ℤ × ℤ)) (i : ℕ) :
    Decidable (peak_suppressed mg sg peaks i) :=
  inferInstanceAs (Decidable (0 < i ∧ mg ≤ peak_gap peaks i ∧ peak_gap peaks i < sg))

/-- Claim-side (C5): the start of peak `i` after merging: the original start
of the first peak of the maximal merge chain ending at `i` (each merge
replaces the start with the predecessor's start). -/
def peak_chain_start (mg : ℚ) (peaks : List (ℤ × ℤ)) : ℕ → ℤ
  | 0 => (peaks.getD 0 (0, 0)).1
  | i + 1 =>
    if peak_gap peaks (i + 1) < mg then peak_chain_start mg peaks i
    else (peaks.getD (i + 1) (0, 0)).1

/-- Claim-side (C5) generalized over the suppression status of the first
peak in the list (used in the induction; the claim's statement is the
`supp0 = false` instance). -/
def fps_from (mg sg : ℚ) (ps : List (ℤ × ℤ)) (supp0 : Bool) : List (ℤ × ℤ) :=
  (List.range ps.length).filterMap (fun i =>
    if peak_merged mg ps i ∨ (i = 0 ∧ supp0 = true) ∨ peak_suppressed mg sg ps i
    then none
    else some (peak_chain_start mg ps i, (ps.getD i (0, 0)).2))

/-- Claim-side (C5): the returned list is exactly the peaks that are neither
merged-away nor suppressed, in their original order, with merged chains
carrying the chain's original start. -/
def filter_peaks_spec (nbins : ℕ) (peaks : List (ℤ × ℤ)) : List (ℤ × ℤ) :=
  let mg : ℚ := (nbins : ℚ) / 100
  let sg : ℚ := (nbins : ℚ) / 50
  (List.range peaks.length).filterMap (fun i =>
    if peak_merged mg peaks i ∨ peak_suppressed mg sg peaks i then none
    else some (peak_chain_start mg peaks i, (peaks.getD i (0, 0)).2))

/-! ## Logic-level bootstrap (`find_logic_levels`, decode.py lines 240-315) -/

/-- `collections.deque(maxlen=maxlen)` after `buf.append(x)`: the oldest
element is dropped once the buffer is full. -/
def deque_append (maxlen : ℕ) (buf : List ℚ) (x : ℚ) : List ℚ :=
  let b := buf ++ [x]
  b.drop (b.length - maxlen)

/-- The `S_FINISH_BUF` phase of `find_logic_levels` (decode.py lines
295-301): keep appending samples, decrementing `buf_remaining`, until the
edge event sits mid-buffer with the buffer full, the sample budget runs
out, or the input ends; the buffered values are then handed on. -/
def fll_finish (buf_size : ℕ) : List ℚ → ℤ → ℕ → List (ℚ × ℚ) → List ℚ
  | buf, _, 0, _ => buf
  | buf, _, _ + 1, [] => buf
  | buf, br, b + 1, s :: rest =>
    let buf2 := deque_append buf_size buf s.2
    if br - 1 ≤ 0 ∧ buf_size ≤ buf2.length then buf2
    else fll_finish buf_size buf2 (br - 1) b rest

/-- The `S_FIND_EDGE` phase of `find_logic_levels` (decode.py lines
282-293): accumulate running statistics over the sample values until a
sample lies more than three standard deviations from the running mean once
at least four samples have been accumulated; `none` when the budget or the
input is exhausted first.  Modelled from the spec: the external
`stats.OnlineStats` (not under src/) is the exact running count / sum /
sum-of-squares accumulator, and `math.sqrt` is the explicit parameter
`sq`. -/
def fll_find_edge (buf_size : ℕ) (sq : ℚ → ℚ) :
    List ℚ → OnlineStats → ℕ → ℕ → List (ℚ × ℚ) → Option (List ℚ)
  | _, _, _, 0, _ => none
  | _, _, _, _ + 1, [] => none
  | buf, os, oi, b + 1, s :: rest =>
    let ns := s.2
    let buf2 := deque_append buf_size buf ns
    let os2 := os.accumulate ns
    if 3 < oi + 1 ∧ 3 * os2.std sq 0 < |ns - os2.mean| then
      some (fll_finish buf_size buf2
        (if buf2.length < buf_size / 2 then (buf_size : ℤ) - buf2.length
         else ((buf_size / 2 : ℕ) : ℤ)) b rest)
    else fll_find_edge buf_size sq buf2 os2 (oi + 1) b rest

/-- `find_logic_levels(samples, max_samples, buf_size)` (decode.py lines
240-315), modelled up to the final hand-off: the closing call
`find_bot_top_hist_peaks(buf, 100, use_kde=True)` is represented by the
returned triple (buffered values, `bins`, `use_kde`), since the histogram
construction on the buffer is external numerics. -/
def find_logic_levels (sq : ℚ → ℚ) (max_samples buf_size : ℕ)
    (samples : List (ℚ × ℚ)) : Option (List ℚ × ℕ × Bool) :=
  (fll_find_edge buf_size sq [] OnlineStats.empty 0 max_samples samples).map
    (fun buf => (buf, 100, true))

/-- Claim-side (C7): the running statistics over a list of sample
values. -/
def fll_stats (xs : List ℚ) : OnlineStats :=
  xs.foldl OnlineStats.accumulate OnlineStats.empty

/-- Claim-side (C7): sample `i` is an edge event — at least four samples
accumulated (the current one included) and the value more than three
standard deviations from the running mean of the online statistics. -/
def fll_edge_at (sq : ℚ → ℚ) (xs : List ℚ) (i : ℕ) : Prop :=
  3 < i + 1 ∧ 3 * (fll_stats (xs.take (i + 1))).std sq 0 <
    |xs.getD i 0 - (fll_stats (xs.take (i + 1))).mean|

/-- The edge condition of `fll_find_edge` relative to statistics already
seeded with an earlier prefix (`os`, `oi` accumulated so far); the loop
invariant form of `fll_edge_at`. -/
def fll_cond (sq : ℚ → ℚ) (os : OnlineStats) (oi : ℕ) (xs : List ℚ) (i : ℕ) : Prop :=
  3 < oi + i + 1 ∧
    3 * ((xs.take (i + 1)).foldl OnlineStats.accumulate os).std sq 0 <
      |xs.getD i 0 - ((xs.take (i + 1)).foldl OnlineStats.accumulate os).mean|

/-! ## Symbol-rate estimation (`find_symbol_rate`, decode.py lines 608-720) -/

/-- Python `int()` applied to a float: truncation toward zero. -/
def py_int (q : ℚ) : ℤ := if q < 0 then -⌊-q⌋ else ⌊q⌋

/-- Python list slicing `l[a:b]`: negative indices count from the end,
out-of-range bounds are clamped. -/
def py_slice {α : Type _} (l : List α) (a b : ℤ) : List α :=
  let n : ℤ := l.length
  let a2 := if a < 0 then max 0 (a + n) else min a n
  let b2 := if b < 0 then max 0 (b + n) else min b n
  (l.take b2.toNat).drop a2.toNat

/-- Python `max(pairs, key=lambda x: x[1])`: the first pair with maximal
second component; `ValueError` on an empty sequence. -/
def max_by_snd : List (ℚ × ℚ) → Except Err (ℚ × ℚ)
  | [] => .error .valueError
  | x :: rest => .ok (rest.foldl (fun acc y => if acc.2 < y.2 then y else acc) x)

/-- `find_symbol_rate(edges, sample_rate, ...)` (decode.py lines 608-720),
modelled from the point where the harmonic product spectrum `hps` over the
span grid `x_hps` is available (line 706): the span KDE and the downshifted
spectrum products are external numerics.  Returns the sentinel 0 when the
peak detector finds no peak or when the dominant span is zero, and
otherwise `int(sample_rate / peak_span)` for the maximal-value bin of the
leftmost peak. -/
def find_symbol_rate (sq : ℚ → ℚ) (sample_rate : ℚ) (x_hps hps : List ℚ) :
    Except Err ℤ :=
  let peaks := find_hist_peaks sq hps
  if peaks.length < 1 then .ok 0
  else
    let hps_pairs := x_hps.zip hps
    let p := peaks.headD (0, 0)
    match max_by_snd (py_slice hps_pairs p.1 (p.2 + 1)) with
    | .error e => .error e
    | .ok m =>
      let peak_span := m.1
      if peak_span ≠ 0 then .ok (py_int (sample_rate / peak_span))
      else .ok 0

/-! ## Edge-sequence cursors (`EdgeSequence` / `MultiEdgeSequence`,
decode.py lines 722-930) -/

/-- `EdgeSequence` (decode.py lines 722-806): a cursor over an edge
iterator.  The remaining iterator is the list `edges`; `cur_states` and
`next_states` are the two buffered edges. -/
structure EdgeSequence where
  edges : List Edge
  time_step : ℚ
  it_end : Bool
  cur_states : Edge
  next_states : Edge
  cur_time : ℚ
  deriving DecidableEq, Repr

/-- Placeholder cursor for out-of-range list accesses (never built by the
constructor, which requires two edges). -/
def es_dflt : EdgeSequence := ⟨[], 0, true, (0, 0), (0, 0), 0⟩

/-- The `while self.cur_time > self.next_states[0]` roll of
`EdgeSequence.advance` (decode.py lines 769-776): returns the updated
`(cur_states, next_states, edges, it_end)`. -/
def es_advance_loop (ct : ℚ) : Edge → Edge → List Edge → Bool →
    Edge × Edge × List Edge × Bool
  | cur, nxt, [], ie =>
    if ct > nxt.1 then (nxt, nxt, [], true) else (cur, nxt, [], ie)
  | cur, nxt, e :: rest2, ie =>
    if ct > nxt.1 then es_advance_loop ct nxt e rest2 ie
    else (cur, nxt, e :: rest2, ie)

/-- `EdgeSequence.advance(time_step)` (decode.py lines 759-776): `none`
stands for the omitted argument, defaulting to the stored `time_step`. -/
def EdgeSequence.advance (es : EdgeSequence) (time_step : Option ℚ) : EdgeSequence :=
  let ts := time_step.getD es.time_step
  let ct := es.cur_time + ts
  let r := es_advance_loop ct es.cur_states es.next_states es.edges es.it_end
  ⟨r.2.2.1, es.time_step, r.2.2.2, r.1, r.2.1, ct⟩

/-- The `while self.cur_states[1] == start_state` loop of
`EdgeSequence.advance_to_edge` (decode.py lines 778-800): carries
`(time_step, cur_time, cur_states, next_states, edges, it_end)`. -/
def es_ate_loop (start_state : ℤ) : ℚ → ℚ → Edge → Edge → List Edge → Bool →
    ℚ × ℚ × Edge × Edge × List Edge × Bool
  | ts, ct, cur, nxt, [], ie =>
    if cur.2 = start_state then
      (ts + (nxt.1 - ct), nxt.1, nxt, nxt, [],
        if nxt.2 = start_state then true else ie)
    else (ts, ct, cur, nxt, [], ie)
  | ts, ct, cur, nxt, e :: rest2, ie =>
    if cur.2 = start_state then
      es_ate_loop start_state (ts + (nxt.1 - ct)) nxt.1 nxt e rest2 ie
    else (ts, ct, cur, nxt, e :: rest2, ie)

/-- `EdgeSequence.advance_to_edge()` (decode.py lines 778-800): the time
advanced, paired with the updated cursor. -/
def EdgeSequence.advance_to_edge (es : EdgeSequence) : ℚ × EdgeSequence :=
  if es.it_end then (0, es)
  else
    let r := es_ate_loop es.cur_states.2 0 es.cur_time es.cur_states es.next_states
      es.edges es.it_end
    (r.1, ⟨r.2.2.2.2.1, es.time_step, r.2.2.2.2.2, r.2.2.1, r.2.2.2.1, r.2.1⟩)

/-- `MultiEdgeSequence` (decode.py lines 812-930): named channel
cursors.  `channel_ids` maps `channel_names[i]` to `i` and is represented
by positional lookup. -/
structure MultiEdgeSequence where
  channel_names : List String
  sequences : List EdgeSequence
  deriving DecidableEq, Repr

/-- `MultiEdgeSequence.advance(time_step)` (decode.py lines 837-845). -/
def MultiEdgeSequence.advance (mes : MultiEdgeSequence) (time_step : Option ℚ) :
    MultiEdgeSequence :=
  ⟨mes.channel_names, mes.sequences.map (fun s => s.advance time_step)⟩

/-- Python `min(active_seq, key=lambda x: x.next_states[0])` over the
index-tagged active cursors: the first minimal element. -/
def mes_min : List (ℕ × EdgeSequence) → Option (ℕ × EdgeSequence)
  | [] => none
  | x :: rest => some (rest.foldl
      (fun acc y => if y.2.next_states.1 < acc.2.next_states.1 then y else acc) x)

/-- `self.channel_ids` lookup: the index of a channel name. -/
def mes_chan_ix (nm : String) : List String → Option ℕ
  | [] => none
  | c :: rest => if c = nm then some 0 else (mes_chan_ix nm rest).map (fun n => n + 1)

/-- The tail of `MultiEdgeSequence.advance_to_edge` (decode.py lines
884-896) once the cursor `s` at index `i` is chosen: advance it to its
next edge, then advance every other channel by the same time step when it
is positive.  Python compares cursors by identity (`is`); the index `i`
stands for that identity. -/
def mes_step (mes : MultiEdgeSequence) (i : ℕ) (s : EdgeSequence) (nm : String) :
    (ℚ × String) × MultiEdgeSequence :=
  let r := s.advance_to_edge
  ((r.1, nm),
    ⟨mes.channel_names,
      ((List.range mes.sequences.length).zip mes.sequences).map (fun p =>
        if p.1 = i then r.2 else if 0 < r.1 then p.2.advance (some r.1) else p.2)⟩)

/-- `MultiEdgeSequence.advance_to_edge(channel_name)` (decode.py lines
847-896): with no name, pick the non-ended cursor with the nearest next
edge (`(0.0, chr-empty)` when none remain); with a name, look the channel
up, raising `ValueError` for an invalid name. -/
def MultiEdgeSequence.advance_to_edge (mes : MultiEdgeSequence)
    (channel_name : Option String) : Except Err ((ℚ × String) × MultiEdgeSequence) :=
  match channel_name with
  | none =>
    match mes_min (((List.range mes.sequences.length).zip mes.sequences).filter
        (fun p => !p.2.it_end)) with
    | none => .ok ((0, ""), mes)
    | some (i, s) => .ok (mes_step mes i s (mes.channel_names.getD i ""))
  | some nm =>
    match mes_chan_ix nm mes.channel_names with
    | none => .error .valueError
    | some i => .ok (mes_step mes i (mes.sequences.getD i es_dflt) nm)

/-- Claim-side (C9): all channel cursors report the same current time. -/
def mes_time_aligned (mes : MultiEdgeSequence) : Prop :=
  ∀ s ∈ mes.sequences, ∀ s2 ∈ mes.sequences, s.cur_time = s2.cur_time

/-- Well-formedness of a cursor as produced and maintained by the
constructor: the current time does not sit past the buffered next edge
while the iterator is live, and the buffered next edge precedes the
remaining edges, which are in time order. -/
def es_wf (es : EdgeSequence) : Prop :=
  (es.it_end = false → es.cur_time ≤ es.next_states.1) ∧
  List.Chain (fun a b : Edge => a.1 ≤ b.1) es.next_states es.edges

end Ripyl

namespace Ripyl

theorem except_map_ok {ε α β : Type _} {f : α → β} {x : Except ε α} {b : β}
    (h : f <$> x = .ok b) : ∃ a, x = .ok a ∧ b = f a := by
  cases x with
  | error e => simp [Except.map] at h
  | ok a => refine ⟨a, rfl, ?_⟩; simpa [Except.map] using h.symm

theorem filterMap_cons_none2 {α β : Type _} (f : α → Option β) (a : α) (l : List α)
    (h : f a = none) : (a :: l).filterMap f = l.filterMap f := by
  rw [List.filterMap_cons, h]

theorem filterMap_cons_some2 {α β : Type _} (f : α → Option β) (a : α) (l : List α) (b : β)
    (h : f a = some b) : (a :: l).filterMap f = b :: l.filterMap f := by
  rw [List.filterMap_cons, h]

theorem fe_ls_inj : ∀ a b : FZone, fe_is_stable_zone a = true →
    fe_is_stable_zone b = true → a ≠ b →
    fe_zone_to_logic_state a ≠ fe_zone_to_logic_state b := by decide

theorem fde_ls_inj : ∀ a b : DZone, fde_is_stable_zone a = true →
    fde_is_stable_zone b = true → a ≠ b →
    fde_zone_to_logic_state a ≠ fde_zone_to_logic_state b := by decide

/-- The `find_edges` loop can only fail with `undefinedPrevStable`; starting
from a state whose transition form carries an assigned `prev_stable`, it
always succeeds. -/
theorem fe_loop_ok (ht hb : ℚ) (rest : List Sample) :
    ∀ (st : FEState) (prev : Option FZone), fe_inv st prev = true →
      ∃ l, fe_loop ht hb st prev rest = .ok l := by
  induction rest with
  | nil => exact fun _ _ _ => ⟨[], rfl⟩
  | cons x rest ih =>
    obtain ⟨t, sample⟩ := x
    intro st prev hinv
    have hrec : ∀ (st' : FEState) (prev' : Option FZone), fe_inv st' prev' = true →
        ∀ f : List Edge → List Edge,
        ∃ l, f <$> fe_loop ht hb st' prev' rest = .ok l := by
      intro st' prev' h f
      obtain ⟨l, hl⟩ := ih st' prev' h
      exact ⟨f l, by rw [hl]; rfl⟩
    cases hzone : fe_get_sample_zone ht hb sample <;>
      rcases st with _ | z <;>
      try cases z
    all_goals (try rcases prev with _ | p) <;> (try cases p) <;>
      simp [fe_loop, hzone, fe_is_stable_zone, fe_zone_to_logic_state] <;>
      first
        | (refine ih _ _ ?_; rfl)
        | (refine hrec _ _ ?_ _; rfl)
        | exact absurd hinv Bool.false_ne_true

/-- Differential analogue of `fe_loop_ok`. -/
theorem fde_loop_ok (hht hhb hlt hlb : ℚ) (rest : List Sample) :
    ∀ (st : FDEState) (prev : Option DZone), fde_inv st prev = true →
      ∃ l, fde_loop hht hhb hlt hlb st prev rest = .ok l := by
  induction rest with
  | nil => exact fun _ _ _ => ⟨[], rfl⟩
  | cons x rest ih =>
    obtain ⟨t, sample⟩ := x
    intro st prev hinv
    have hrec : ∀ (st' : FDEState) (prev' : Option DZone), fde_inv st' prev' = true →
        ∀ f : List Edge → List Edge,
        ∃ l, f <$> fde_loop hht hhb hlt hlb st' prev' rest = .ok l := by
      intro st' prev' h f
      obtain ⟨l, hl⟩ := ih st' prev' h
      exact ⟨f l, by rw [hl]; rfl⟩
    cases hzone : fde_get_sample_zone hht hhb hlt hlb sample <;>
      rcases st with _ | z <;>
      try cases z
    all_goals (try rcases prev with _ | p) <;> (try cases p) <;>
      simp [fde_loop, hzone, fde_is_stable_zone, fde_zone_to_logic_state] <;>
      first
        | (refine ih _ _ ?_; rfl)
        | (refine hrec _ _ ?_ _; rfl)
        | exact absurd hinv Bool.false_ne_true

theorem alt_cons_of (tq : ℚ) (v : ℤ) {l : List Edge}
    (h1 : edge_states_alternate l)
    (h2 : ∀ e, l.head? = some e → e.2 ≠ v) :
    edge_states_alternate ((tq, v) :: l) := by
  rw [edge_states_alternate, List.chain'_cons']
  exact ⟨fun y hy hvy => (h2 y hy) hvy.symm, h1⟩

/-- Emissions of the `find_edges` loop always alternate in logic level, and
the first emission differs from the reference level `fe_ref st prev`. -/
theorem fe_loop_alt (ht hb : ℚ) (rest : List Sample) :
    ∀ (st : FEState) (prev : Option FZone) (l : List Edge),
      fe_inv st prev = true →
      fe_loop ht hb st prev rest = .ok l →
      edge_states_alternate l ∧
        ∀ r e, fe_ref st prev = some r → l.head? = some e → e.2 ≠ r := by
  induction rest with
  | nil =>
    intro st prev l _ h
    have h' : Except.ok (ε := Err) ([] : List Edge) = .ok l := by
      rw [← h]; cases st <;> rfl
    rw [Except.ok.injEq] at h'
    subst h'
    exact ⟨List.chain'_nil, fun r e _ he => nomatch he⟩
  | cons x rest ih =>
    obtain ⟨t, sample⟩ := x
    intro st prev l hinv h
    have ih' : ∀ {st' : FEState} {prev' : Option FZone} {l' : List Edge},
        fe_loop ht hb st' prev' rest = .ok l' → fe_inv st' prev' = true →
        edge_states_alternate l' ∧
          ∀ r e, fe_ref st' prev' = some r → l'.head? = some e → e.2 ≠ r :=
      fun {st' prev' l'} he hi => ih st' prev' l' hi he
    cases hzone : fe_get_sample_zone ht hb sample <;>
      rcases st with _ | z <;>
      try cases z
    all_goals (try rcases prev with _ | p) <;> (try cases p) <;>
      simp only [fe_loop, hzone, fe_is_stable_zone, fe_zone_to_logic_state,
        ne_eq, reduceCtorEq, not_false_eq_true, not_true_eq_false,
        if_true, if_false, ite_true, ite_false, Bool.true_eq_false,
        Bool.false_eq_true, reduceIte] at h <;>
      first
        | exact absurd hinv Bool.false_ne_true
        | (have hx := ih' h rfl; exact hx)
        | (obtain ⟨l', hl', rfl⟩ := except_map_ok h
           have hih := ih' hl' rfl
           refine ⟨alt_cons_of _ _ hih.1 (fun e he => hih.2 _ e rfl he), ?_⟩
           rintro r e hr he
           rw [List.head?_cons, Option.some_inj] at he
           subst he
           simp [fe_ref, fe_is_stable_zone, fe_zone_to_logic_state] at hr
           simp
           omega)
        | (have hx := ih' h rfl
           exact ⟨hx.1, fun r e hre _ => nomatch hre⟩)

/-- Differential analogue of `fe_loop_alt`. -/
theorem fde_loop_alt (hht hhb hlt hlb : ℚ) (rest : List Sample) :
    ∀ (st : FDEState) (prev : Option DZone) (l : List Edge),
      fde_inv st prev = true →
      fde_loop hht hhb hlt hlb st prev rest = .ok l →
      edge_states_alternate l ∧
        ∀ r e, fde_ref st prev = some r → l.head? = some e → e.2 ≠ r := by
  induction rest with
  | nil =>
    intro st prev l _ h
    have h' : Except.ok (ε := Err) ([] : List Edge) = .ok l := by
      rw [← h]; cases st <;> rfl
    rw [Except.ok.injEq] at h'
    subst h'
    exact ⟨List.chain'_nil, fun r e _ he => nomatch he⟩
  | cons x rest ih =>
    obtain ⟨t, sample⟩ := x
    intro st prev l hinv h
    have ih' : ∀ {st' : FDEState} {prev' : Option DZone} {l' : List Edge},
        fde_loop hht hhb hlt hlb st' prev' rest = .ok l' → fde_inv st' prev' = true →
        edge_states_alternate l' ∧
          ∀ r e, fde_ref st' prev' = some r → l'.head? = some e → e.2 ≠ r :=
      fun {st' prev' l'} he hi => ih st' prev' l' hi he
    cases hzone : fde_get_sample_zone hht hhb hlt hlb sample <;>
      rcases st with _ | z <;>
      try cases z
    all_goals (try rcases prev with _ | p) <;> (try cases p) <;>
      simp only [fde_loop, hzone, fde_is_stable_zone, fde_zone_to_logic_state,
        ne_eq, reduceCtorEq, not_false_eq_true, not_true_eq_false,
        if_true, if_false, ite_true, ite_false, Bool.true_eq_false,
        Bool.false_eq_true, reduceIte] at h <;>
      first
        | exact absurd hinv Bool.false_ne_true
        | (have hx := ih' h rfl; exact hx)
        | (obtain ⟨l', hl', rfl⟩ := except_map_ok h
           have hih := ih' hl' rfl
           refine ⟨alt_cons_of _ _ hih.1 (fun e he => hih.2 _ e rfl he), ?_⟩
           rintro r e hr he
           rw [List.head?_cons, Option.some_inj] at he
           subst he
           simp [fde_ref, fde_is_stable_zone, fde_zone_to_logic_state] at hr
           simp
           omega)
        | (have hx := ih' h rfl
           exact ⟨hx.1, fun r e hre _ => nomatch hre⟩)

/-- While every sample stays in the hysteresis band, the `find_edges` loop
emits nothing and its state does not change. -/
theorem fe_loop_t_skip (ht hb : ℚ) (mid : List Sample) :
    (∀ m ∈ mid, fe_get_sample_zone ht hb m.2 = .t) →
    ∀ (prev : Option FZone) (tail : List Sample),
      fe_loop ht hb (.zone .t) prev (mid ++ tail) =
        fe_loop ht hb (.zone .t) prev tail := by
  induction mid with
  | nil => intro _ prev tail; rfl
  | cons m mid ih =>
    intro hmid prev tail
    obtain ⟨tm, sm⟩ := m
    have hm : fe_get_sample_zone ht hb sm = .t := hmid (tm, sm) (List.mem_cons_self _ _)
    simp only [List.cons_append, fe_loop, hm, fe_is_stable_zone,
      Bool.false_eq_true, if_false, ite_false, reduceIte]
    exact ih (fun m hm' => hmid m (List.mem_cons_of_mem _ hm')) prev tail

/-- The first element yielded by `remove_short_diff_0s` is always the first
edge of the input stream. -/
theorem rsd_loop_head (minT : ℚ) (e0 : Edge) (rest : List Edge) :
    ∃ l', rsd_loop minT e0 none false rest = e0 :: l' := by
  cases rest with
  | nil => exact ⟨[], rfl⟩
  | cons e rest =>
    simp only [rsd_loop, ite_self, Bool.false_eq_true, if_false, ite_false, reduceIte]
    exact ⟨_, rfl⟩

/-- C10: neither `find_edges` nor `find_differential_edges` can ever read an
unassigned `prev_stable` variable: the state machine leaves `ES_START` only
into a stable zone, and each entry into a transition state records the
previous stable state first, so the generators never fail with an
undefined-variable error on any input sample stream. -/
theorem find_edges_never_reads_unassigned_prev_stable :
    ∀ (low high hyst : ℚ) (samples : List Sample),
      find_edges low high hyst samples ≠ .error .undefinedPrevStable ∧
      find_differential_edges low high hyst samples ≠ .error .undefinedPrevStable := by
  intro low high hyst samples
  constructor
  · cases samples with
    | nil => simp [find_edges]
    | cons x rest =>
      obtain ⟨t0, s0⟩ := x
      simp only [find_edges]
      obtain ⟨l, hl⟩ := fe_loop_ok _ _ rest .start none rfl
      rw [hl]
      simp
  · cases samples with
    | nil => simp [find_differential_edges]
    | cons x rest =>
      obtain ⟨t0, s0⟩ := x
      simp only [find_differential_edges]
      obtain ⟨l, hl⟩ := fde_loop_ok _ _ _ _ rest .start none rfl
      rw [hl]
      simp

/-- C1 counterexample: `find_edges` can emit an edge whose state equals the
state of the immediately preceding stream element.  With logic (0, 1) and
hysteresis 0.4, the samples (0, 0), (1, 1), (2, 0) yield the stream
(0, 0), (2, 0): the initial state is 0 and the single emitted "transition"
also carries state 0, because the rising edge was swallowed while the
machine was still in `ES_START`. -/
theorem edge_stream_alternation_counterexample :
    find_edges 0 1 (2/5) [(0, 0), (1, 1), (2, 0)] = .ok [(0, 0), (2, 0)] ∧
      ¬ edge_states_alternate [((0 : ℚ), (0 : ℤ)), ((2 : ℚ), (0 : ℤ))] := by
  constructor
  · norm_num [find_edges, fe_loop, fe_get_sample_zone, fe_is_stable_zone,
      fe_zone_to_logic_state]
    decide
  · simp [edge_states_alternate, List.chain'_pair]

/-- C1 (amended): for `find_edges` and `find_differential_edges` the first
element of the output stream is the initial state (computed with the plain
midpoint thresholds), and the elements after the first have pairwise
distinct consecutive states among themselves; the first emitted transition
may however repeat the initial element's state, so the claimed invariant
holds of the tail but not of the whole stream.  For `remove_short_diff_0s`
only the first element (the input's initial edge, passed through) is
guaranteed; consecutive equal states occur when a short run is collapsed. -/
theorem edge_stream_initial_state_and_tail_alternation :
    (∀ (low high hyst t0 s0 : ℚ) (rest : List Sample) (l : List Edge),
      find_edges low high hyst ((t0, s0) :: rest) = .ok l →
      l.head? = some (t0, if s0 > (high + low) / 2 then 1 else 0) ∧
        edge_states_alternate l.tail) ∧
    (∀ (low high hyst t0 s0 : ℚ) (rest : List Sample) (l : List Edge),
      find_differential_edges low high hyst ((t0, s0) :: rest) = .ok l →
      l.head? = some (t0,
        if s0 > (high + (high + low) / 2) / 2 then 1
        else if s0 > ((high + low) / 2 + low) / 2 then 0 else -1) ∧
        edge_states_alternate l.tail) ∧
    (∀ (minT : ℚ) (e0 : Edge) (er : List Edge) (l : List Edge),
      remove_short_diff_0s minT (e0 :: er) = .ok l → l.head? = some e0) := by
  refine ⟨?_, ?_, ?_⟩
  · intro low high hyst t0 s0 rest l h
    simp only [find_edges] at h
    obtain ⟨l', hl', rfl⟩ := except_map_ok h
    exact ⟨rfl, (fe_loop_alt _ _ rest .start none l' rfl hl').1⟩
  · intro low high hyst t0 s0 rest l h
    simp only [find_differential_edges] at h
    obtain ⟨l', hl', rfl⟩ := except_map_ok h
    exact ⟨rfl, (fde_loop_alt _ _ _ _ rest .start none l' rfl hl').1⟩
  · intro minT e0 er l h
    simp only [remove_short_diff_0s, Except.ok.injEq] at h
    obtain ⟨l', hl'⟩ := rsd_loop_head minT e0 er
    rw [hl'] at h
    rw [← h]
    rfl

/-- Witness for the amended C1 at a concrete input. -/
theorem edge_stream_initial_state_and_tail_alternation_witness :
    ([((0 : ℚ), (0 : ℤ)), (2, 1)].head? =
        some ((0 : ℚ), if (0 : ℚ) > ((1 : ℚ) + 0) / 2 then 1 else 0) ∧
      edge_states_alternate [((0 : ℚ), (0 : ℤ)), ((2 : ℚ), (1 : ℤ))].tail) ∧
    [((0 : ℚ), (1 : ℤ)), (5/2, 1), (3, 1), (10, -1)].head? = some ((0 : ℚ), (1 : ℤ)) := by
  constructor
  · exact (edge_stream_initial_state_and_tail_alternation.1 0 1 (2/5) 0 0
      [(1, 0), (2, 1), (3, 1)] [(0, 0), (2, 1)]
      (by norm_num [find_edges, fe_loop, fe_get_sample_zone, fe_is_stable_zone,
        fe_zone_to_logic_state]; decide))
  · exact (edge_stream_initial_state_and_tail_alternation.2.2 5 (0, 1)
      [(2, 0), (3, 1), (10, -1)] [(0, 1), (5/2, 1), (3, 1), (10, -1)]
      (by norm_num [remove_short_diff_0s, rsd_loop]))

/-- C2: from the transition band, a sample landing in a stable zone makes
`find_edges` emit an edge exactly when that zone differs from the stored
previous stable zone; and a sample sequence that dips from a stable level
into the hysteresis band and returns to the same level emits nothing. -/
theorem transition_band_exit_emission :
    (∀ (ht hb t sample : ℚ) (p : FZone) (rest : List Sample),
      fe_is_stable_zone (fe_get_sample_zone ht hb sample) = true →
      (fe_get_sample_zone ht hb sample ≠ p →
        fe_loop ht hb (.zone .t) (some p) ((t, sample) :: rest) =
          ((t, fe_zone_to_logic_state (fe_get_sample_zone ht hb sample)) :: ·) <$>
            fe_loop ht hb (.zone (fe_get_sample_zone ht hb sample)) (some p) rest) ∧
      (fe_get_sample_zone ht hb sample = p →
        fe_loop ht hb (.zone .t) (some p) ((t, sample) :: rest) =
          fe_loop ht hb (.zone (fe_get_sample_zone ht hb sample)) (some p) rest)) ∧
    (∀ (ht hb : ℚ) (z : FZone) (prev : Option FZone) (x : Sample) (mid : List Sample)
        (y : Sample) (rest : List Sample),
      fe_is_stable_zone z = true →
      fe_get_sample_zone ht hb x.2 = .t →
      (∀ m ∈ mid, fe_get_sample_zone ht hb m.2 = .t) →
      fe_get_sample_zone ht hb y.2 = z →
      fe_loop ht hb (.zone z) prev (x :: (mid ++ y :: rest)) =
        fe_loop ht hb (.zone z) (some z) rest) := by
  constructor
  · intro ht hb t sample p rest hstable
    constructor
    · intro hne
      cases hz : fe_get_sample_zone ht hb sample with
      | t => rw [hz] at hstable; exact absurd hstable (by decide)
      | l1 =>
        rw [hz] at hne
        simp only [fe_loop, hz, fe_is_stable_zone, Bool.false_eq_true, if_false,
          ite_false, if_true, ite_true, reduceIte, ne_eq]
        rw [if_pos hne]
      | l0 =>
        rw [hz] at hne
        simp only [fe_loop, hz, fe_is_stable_zone, Bool.false_eq_true, if_false,
          ite_false, if_true, ite_true, reduceIte, ne_eq]
        rw [if_pos hne]
    · intro heq
      cases hz : fe_get_sample_zone ht hb sample with
      | t => rw [hz] at hstable; exact absurd hstable (by decide)
      | l1 =>
        rw [hz] at heq
        subst heq
        simp [fe_loop, hz, fe_is_stable_zone]
      | l0 =>
        rw [hz] at heq
        subst heq
        simp [fe_loop, hz, fe_is_stable_zone]
  · intro ht hb z prev x mid y rest hz hx hmid hy
    obtain ⟨tx, sx⟩ := x
    obtain ⟨ty, sy⟩ := y
    simp only at hx hy
    cases z with
    | t => exact absurd hz (by decide)
    | l1 =>
      simp only [List.cons_append, fe_loop, hx, fe_is_stable_zone,
        Bool.false_eq_true, if_false, ite_false, reduceIte]
      rw [fe_loop_t_skip ht hb mid hmid]
      simp [fe_loop, hy, fe_is_stable_zone]
    | l0 =>
      simp only [List.cons_append, fe_loop, hx, fe_is_stable_zone,
        Bool.false_eq_true, if_false, ite_false, reduceIte]
      rw [fe_loop_t_skip ht hb mid hmid]
      simp [fe_loop, hy, fe_is_stable_zone]

/-- Witness for C2 at a concrete input. -/
theorem transition_band_exit_emission_witness :
    (fe_loop 1 0 (.zone .t) (some .l0) [(5, 2)] =
      ((5, fe_zone_to_logic_state (fe_get_sample_zone 1 0 2)) :: ·) <$>
        fe_loop 1 0 (.zone (fe_get_sample_zone 1 0 2)) (some .l0) []) ∧
    fe_loop 1 0 (.zone .l1) (some .l0) [(1, 1/2), (2, 2)] =
      fe_loop 1 0 (.zone .l1) (some .l1) [] := by
  constructor
  · exact (transition_band_exit_emission.1 1 0 5 2 .l0 [] (by decide)).1 (by decide)
  · exact transition_band_exit_emission.2 1 0 .l1 (some .l0) (1, 1/2) [] (2, 2) []
      (by decide) (by norm_num [fe_get_sample_zone]) (by simp)
      (by norm_num [fe_get_sample_zone])

theorem rsd_loop_ne_nil (minT : ℚ) :
    ∀ (rest : List Edge) (prev : Edge) (d0 : Option ℚ) (m : Bool),
      rsd_loop minT prev d0 m rest ≠ [] := by
  intro rest
  induction rest with
  | nil => intro prev d0 m; simp [rsd_loop]
  | cons e rest ih =>
    intro prev d0 m
    cases d0 with
    | some t0 =>
      simp only [rsd_loop]
      by_cases hlen : e.1 - t0 < minT
      · rw [if_pos hlen]; simp
      · rw [if_neg hlen]; simp
    | none =>
      simp only [rsd_loop]
      by_cases hm : (if e.2 ≠ 0 then false else m) = true
      · rw [if_pos hm]; exact ih _ _ _
      · rw [if_neg hm]; simp

/-- `remove_short_diff_0s` always ends its output with the last input edge. -/
theorem rsd_loop_last (minT : ℚ) :
    ∀ (rest : List Edge) (prev : Edge) (d0 : Option ℚ) (m : Bool),
      (rsd_loop minT prev d0 m rest).getLast? = some (rest.getLastD prev) := by
  intro rest
  induction rest with
  | nil => intro prev d0 m; rfl
  | cons e rest ih =>
    intro prev d0 m
    have hcons : ∀ (c : Edge) (R : List Edge), R ≠ [] →
        (c :: R).getLast? = R.getLast? := by
      intro c R hR
      cases R with
      | nil => exact absurd rfl hR
      | cons b R' => exact List.getLast?_cons_cons
    rw [List.getLastD_cons]
    cases d0 with
    | some t0 =>
      simp only [rsd_loop]
      by_cases hlen : e.1 - t0 < minT
      · rw [if_pos hlen, hcons _ _ (rsd_loop_ne_nil minT rest _ _ _), ih]
      · rw [if_neg hlen, hcons _ _ (rsd_loop_ne_nil minT rest _ _ _), ih]
    | none =>
      simp only [rsd_loop]
      by_cases hm : (if e.2 ≠ 0 then false else m) = true
      · rw [if_pos hm, ih]
      · rw [if_neg hm, hcons _ _ (rsd_loop_ne_nil minT rest _ _ _), ih]

/-- C3 counterexample: a below-threshold D0 run is not replaced by a single
synthetic edge.  For the stream (0,+1), (2,0), (3,+1), (10,-1) and threshold
5, the run (2,0)-(3,+1) is short, so the claim predicts the output
(0,+1), (2.5,+1), (10,-1); the code instead also re-emits the run's exit
edge (3,+1) because the edge following it has a non-zero level. -/
theorem glitch_filter_counterexample :
    remove_short_diff_0s 5 [(0, 1), (2, 0), (3, 1), (10, -1)] =
      .ok [(0, 1), (5/2, 1), (3, 1), (10, -1)] ∧
    ([((0 : ℚ), (1 : ℤ)), (5/2, 1), (3, 1), (10, -1)] : List Edge) ≠
      [(0, 1), (5/2, 1), (10, -1)] := by
  constructor
  · norm_num [remove_short_diff_0s, rsd_loop]
  · simp

/-- C3 (amended): when the next edge arrives and the pending D0 run is
shorter than the threshold, a single synthetic edge at the run's midpoint
carrying the next edge's level is emitted instead of the original D0-entry
edge; however the run's exit edge itself is then re-emitted unless the edge
following it is again a D0 edge (level 0), so a short run between equal
levels is not collapsed into "no transition".  Runs at or above the
threshold pass through unmodified as their two original edges, and the
final edge of the input stream is always emitted (it is the last element
of the output). -/
theorem glitch_filter_short_run_behavior :
    (∀ (minT : ℚ) (a : Edge) (t1 t2 t3 : ℚ) (v2 v3 : ℤ),
      v2 ≠ 0 →
      (t2 - t1 < minT → v3 ≠ 0 →
        remove_short_diff_0s minT [a, (t1, 0), (t2, v2), (t3, v3)] =
          .ok [a, ((t1 + t2) / 2, v2), (t2, v2), (t3, v3)]) ∧
      (t2 - t1 < minT → v3 = 0 →
        remove_short_diff_0s minT [a, (t1, 0), (t2, v2), (t3, v3)] =
          .ok [a, ((t1 + t2) / 2, v2), (t3, v3)]) ∧
      (¬ t2 - t1 < minT →
        remove_short_diff_0s minT [a, (t1, 0), (t2, v2), (t3, v3)] =
          .ok [a, (t1, 0), (t2, v2), (t3, v3)])) ∧
    (∀ (minT : ℚ) (e0 : Edge) (rest : List Edge) (l : List Edge),
      remove_short_diff_0s minT (e0 :: rest) = .ok l →
      l.getLast? = some (rest.getLastD e0)) := by
  constructor
  · intro minT a t1 t2 t3 v2 v3 hv2
    refine ⟨?_, ?_, ?_⟩
    · intro hlen hv3
      simp [remove_short_diff_0s, rsd_loop, hv2, hv3, hlen]
    · intro hlen hv3
      subst hv3
      simp [remove_short_diff_0s, rsd_loop, hv2, hlen]
    · intro hlen
      simp [remove_short_diff_0s, rsd_loop, hv2, hlen]
  · intro minT e0 rest l h
    simp only [remove_short_diff_0s, Except.ok.injEq] at h
    rw [← h]
    exact rsd_loop_last minT rest e0 none false

/-- Witness for the amended C3 at concrete inputs. -/
theorem glitch_filter_short_run_behavior_witness :
    remove_short_diff_0s 5 [((0 : ℚ), (1 : ℤ)), (2, 0), (3, 1), (10, -1)] =
      .ok [(0, 1), ((2 + 3) / 2, 1), (3, 1), (10, -1)] ∧
    ([((0 : ℚ), (1 : ℤ)), (5/2, 1), (3, 1), (10, -1)] : List Edge).getLast? =
      some ([((2 : ℚ), (0 : ℤ)), (3, 1), (10, -1)].getLastD (0, 1)) := by
  constructor
  · exact ((glitch_filter_short_run_behavior.1 5 (0, 1) 2 3 10 1 (-1)
      (by decide)).1 (by norm_num) (by decide))
  · exact glitch_filter_short_run_behavior.2 5 (0, 1) [(2, 0), (3, 1), (10, -1)]
      [(0, 1), (5/2, 1), (3, 1), (10, -1)]
      (by norm_num [remove_short_diff_0s, rsd_loop])

/-! ### Statistics lemmas for the peak detector -/

theorem foldl_accum_filter (P : ℚ → Prop) [DecidablePred P] :
    ∀ (l : List ℚ) (os : OnlineStats),
      l.foldl (fun os b => if P b then os.accumulate b else os) os =
        (l.filter (fun b => decide (P b))).foldl OnlineStats.accumulate os := by
  intro l
  induction l with
  | nil => intro os; rfl
  | cons b l ih =>
    intro os
    by_cases hb : P b <;> simp [List.filter_cons, hb, ih]

theorem accum_foldl_stats :
    ∀ (l : List ℚ) (os : OnlineStats),
      l.foldl OnlineStats.accumulate os =
        ⟨os.n + l.length, os.s + l.sum, os.sq + (l.map (fun x => x * x)).sum⟩ := by
  intro l
  induction l with
  | nil => intro os; simp
  | cons b l ih =>
    intro os
    rw [List.foldl_cons, ih]
    simp only [OnlineStats.accumulate, List.length_cons, List.map_cons, List.sum_cons,
      OnlineStats.mk.injEq]
    refine ⟨by omega, by ring, by ring⟩

theorem sum_sq_dev (c : ℚ) :
    ∀ l : List ℚ, (l.map (fun x => (x - c) ^ 2)).sum =
      (l.map (fun x => x * x)).sum - 2 * c * l.sum + l.length * c ^ 2 := by
  intro l
  induction l with
  | nil => simp
  | cons b l ih =>
    simp only [List.map_cons, List.sum_cons, List.length_cons, ih]
    push_cast
    ring

theorem variance_numerator_eq (l : List ℚ) :
    (l.map (fun x => x * x)).sum - l.sum * l.sum / l.length =
      (l.map (fun x => (x - list_mean l) ^ 2)).sum := by
  rcases eq_or_ne l.length 0 with h0 | h0
  · rw [List.length_eq_zero] at h0
    subst h0
    simp
  · rw [sum_sq_dev, list_mean]
    have hn : (l.length : ℚ) ≠ 0 := by exact_mod_cast h0
    field_simp
    ring

theorem hist_t2_eq_spec (sqrt : ℚ → ℚ) (hist : List ℚ) :
    hist_t2 sqrt hist = hist_t2_spec sqrt hist := by
  have hpm : hist_pop_mean hist = list_mean (hist.filter (fun b => decide (0 < b))) := by
    rw [hist_pop_mean, foldl_accum_filter (fun b => 0 < b), accum_foldl_stats]
    simp [OnlineStats.mean, OnlineStats.empty, list_mean]
  have ht1 : hist_t1 sqrt hist =
      list_mean (hist.filter (fun b => decide (0 < b))) +
        2 * sqrt (list_mean (hist.filter (fun b => decide (0 < b)))) := by
    rw [hist_t1, hpm]
  have hfilter : hist.filter (fun b => decide (0 < b ∧ b < hist_t1 sqrt hist)) =
      hist.filter (fun b => decide (0 < b) && decide (b < hist_t1 sqrt hist)) := by
    apply List.filter_congr
    intro a _
    simp [Bool.decide_and]
  rw [hist_t2, hist_t2_spec, foldl_accum_filter (fun b => 0 < b ∧ b < hist_t1 sqrt hist),
    accum_foldl_stats, hpm]
  simp only [OnlineStats.std, OnlineStats.variance, OnlineStats.empty]
  rw [hfilter, ht1]
  simp only [Nat.zero_add, zero_add]
  rw [variance_numerator_eq]

/-- The sentinel-based scan loop agrees with the claim-side scan. -/
theorem scan_go_eq_spec (t2 : ℚ) :
    ∀ (bins : List ℚ) (iN : ℕ) (inP : Bool) (ps : ℤ) (cur : Option ℕ),
      inP = cur.isSome → sentinel_rel iN ps cur →
      (scan_go t2 bins (iN : ℤ) inP ps).1 =
          (scan_spec_go t2 bins iN cur).1.map (fun pr => ((pr.1 : ℤ), (pr.2 : ℤ))) ∧
        sentinel_rel (iN + bins.length)
          (scan_go t2 bins (iN : ℤ) inP ps).2 (scan_spec_go t2 bins iN cur).2 := by
  intro bins
  induction bins with
  | nil =>
    intro iN inP ps cur _ hrel
    exact ⟨rfl, by simpa using hrel⟩
  | cons b rest ih =>
    intro iN inP ps cur hinP hrel
    have hcast : ((iN : ℤ) + 1) = ((iN + 1 : ℕ) : ℤ) := by push_cast; ring
    have hlen : (b :: rest).length = rest.length + 1 := rfl
    cases cur with
    | some s =>
      obtain ⟨hps, hlt⟩ := hrel
      subst hinP
      subst hps
      by_cases hb : b < t2
      · simp only [scan_go, scan_spec_go, Option.isSome_some, if_pos hb, if_true, ite_true,
          hcast, hlen]
        have hrec := ih (iN + 1) false (s : ℤ) none rfl
          (Or.inr (by push_cast; omega))
        refine ⟨?_, ?_⟩
        · simp only [List.map_cons]
          exact congrArg (List.cons _) hrec.1
        · rw [show iN + (rest.length + 1) = (iN + 1) + rest.length by omega]
          exact hrec.2
      · simp only [scan_go, scan_spec_go, Option.isSome_some, if_neg hb, if_true, ite_true,
          hcast, hlen]
        have hrec := ih (iN + 1) true (s : ℤ) (some s) rfl ⟨rfl, by omega⟩
        refine ⟨hrec.1, ?_⟩
        rw [show iN + (rest.length + 1) = (iN + 1) + rest.length by omega]
        exact hrec.2
    | none =>
      have hps := hrel
      subst hinP
      by_cases hb : b ≥ t2
      · simp only [scan_go, scan_spec_go, Option.isSome_none, if_pos hb, Bool.false_eq_true,
          if_false, ite_false, hcast, hlen]
        have hrec := ih (iN + 1) true ((iN : ℕ) : ℤ) (some iN) rfl ⟨rfl, by omega⟩
        refine ⟨hrec.1, ?_⟩
        rw [show iN + (rest.length + 1) = (iN + 1) + rest.length by omega]
        exact hrec.2
      · simp only [scan_go, scan_spec_go, Option.isSome_none, if_neg hb, Bool.false_eq_true,
          if_false, ite_false, hcast, hlen]
        have hrec := ih (iN + 1) false ps none rfl
          (by rcases hps with h | h
              · exact Or.inl h
              · exact Or.inr (by push_cast at h ⊢; omega))
        refine ⟨hrec.1, ?_⟩
        rw [show iN + (rest.length + 1) = (iN + 1) + rest.length by omega]
        exact hrec.2

/-- On a nonempty histogram, the code's scan stage (with its -1 sentinel and
trailing `peak_start == len(hist)-1` test) produces exactly the claim-side
peaks. -/
theorem scan_peaks_eq_spec (t2 : ℚ) (hist : List ℚ) (hne : hist ≠ []) :
    scan_peaks t2 hist =
      (scan_peaks_spec t2 hist).map (fun pr => ((pr.1 : ℤ), (pr.2 : ℤ))) := by
  have h0 : ((0 : ℕ) : ℤ) = 0 := rfl
  have hmain := scan_go_eq_spec t2 hist 0 false (-1) none rfl (Or.inl rfl)
  rw [h0] at hmain
  obtain ⟨h1, h2⟩ := hmain
  have hlen : 1 ≤ hist.length := by
    cases hist with
    | nil => exact absurd rfl hne
    | cons a l => simp
  rcases hspec : (scan_spec_go t2 hist 0 none).2 with _ | s
  · rw [hspec] at h2
    simp only [sentinel_rel] at h2
    have hne' : (scan_go t2 hist 0 false (-1)).2 ≠ (hist.length : ℤ) - 1 := by
      rcases h2 with h | h <;> omega
    simp only [scan_peaks, scan_peaks_spec, hspec, if_neg hne']
    exact h1
  · rw [hspec] at h2
    simp only [sentinel_rel] at h2
    obtain ⟨hps, hlt⟩ := h2
    by_cases hlast : s = hist.length - 1
    · have hcode : (scan_go t2 hist 0 false (-1)).2 = (hist.length : ℤ) - 1 := by
        rw [hps]; omega
      simp only [scan_peaks, scan_peaks_spec, hspec, if_pos hlast, if_pos hcode]
      simp [h1, hps, List.map_append]
    · have hcode : (scan_go t2 hist 0 false (-1)).2 ≠ (hist.length : ℤ) - 1 := by
        rw [hps]; intro hc; apply hlast; omega
      simp only [scan_peaks, scan_peaks_spec, hspec, if_neg hlast, if_neg hcode]
      exact h1

/-- C4: on every nonempty histogram, `find_hist_peaks` computes its
threshold exactly as the claim states it (`pop_mean` the mean of the bins
with count > 0, `t1 = pop_mean + 2*sqrt(pop_mean)`, the Bessel-corrected
standard deviation of the positive bins below `t1`, and
`t2 = pop_mean + 1.5*std`), and its scanned peaks are exactly those of the
claimed two-state machine, including the single-bin peak emitted when the
last bin opens a peak that is never closed. -/
theorem find_hist_peaks_characterization :
    ∀ (sqrt : ℚ → ℚ) (hist : List ℚ), hist ≠ [] →
      hist_t2 sqrt hist = hist_t2_spec sqrt hist ∧
      find_hist_peaks sqrt hist =
        filter_peaks hist.length
          ((scan_peaks_spec (hist_t2_spec sqrt hist) hist).map
            (fun pr => ((pr.1 : ℤ), (pr.2 : ℤ)))) := by
  intro sqrt hist hne
  refine ⟨hist_t2_eq_spec sqrt hist, ?_⟩
  rw [find_hist_peaks, hist_t2_eq_spec, scan_peaks_eq_spec _ _ hne]

/-- C4 counterexample: on the empty histogram the claimed scan machine finds
no peak, but `find_hist_peaks` returns the spurious peak (-1, -1): the
trailing `peak_start == len(hist)-1` test compares the untouched sentinel
-1 with `len(hist)-1 = -1`. -/
theorem find_hist_peaks_empty_counterexample :
    find_hist_peaks (fun _ => 0) [] = [(-1, -1)] ∧
    filter_peaks 0 ((scan_peaks_spec (hist_t2_spec (fun _ => 0) []) []).map
      (fun pr => ((pr.1 : ℤ), (pr.2 : ℤ)))) = [] ∧
    ([((-1 : ℤ), (-1 : ℤ))] : List (ℤ × ℤ)) ≠ [] := by
  refine ⟨?_, rfl, by simp⟩
  norm_num [find_hist_peaks, scan_peaks, scan_go, filter_peaks, fp_go]

/-- Witness for C4 at a concrete input. -/
theorem find_hist_peaks_characterization_witness :
    hist_t2 (fun _ => 0) [0, 10, 10, 0] = hist_t2_spec (fun _ => 0) [0, 10, 10, 0] ∧
    find_hist_peaks (fun _ => 0) [0, 10, 10, 0] =
      filter_peaks 4 ((scan_peaks_spec (hist_t2_spec (fun _ => 0) [0, 10, 10, 0])
        [0, 10, 10, 0]).map (fun pr => ((pr.1 : ℤ), (pr.2 : ℤ)))) := by
  have h := find_hist_peaks_characterization (fun _ => 0) [0, 10, 10, 0] (by decide)
  exact ⟨h.1, h.2⟩

/-! ### Equivalence of the merge/suppress stage with its claim-side form -/

theorem peak_gap_cons_shift (p q h' : ℤ × ℤ) (rest : List (ℤ × ℤ)) (hh : h'.2 = q.2) :
    ∀ i, 1 ≤ i → peak_gap (p :: q :: rest) (i + 1) = peak_gap (h' :: rest) i := by
  intro i hi
  cases i with
  | zero => omega
  | succ j =>
    cases j with
    | zero => simp [peak_gap, hh]
    | succ k => simp [peak_gap]

theorem peak_chain_start_shift (mg : ℚ) (p q h' : ℤ × ℤ) (rest : List (ℤ × ℤ))
    (hh : h'.2 = q.2) (hbase : h'.1 = peak_chain_start mg (p :: q :: rest) 1) :
    ∀ i, peak_chain_start mg (p :: q :: rest) (i + 1) = peak_chain_start mg (h' :: rest) i := by
  intro i
  induction i with
  | zero => simp [peak_chain_start, hbase]
  | succ j ih =>
    have hg := peak_gap_cons_shift p q h' rest hh (j + 1) (by omega)
    rw [show peak_chain_start mg (p :: q :: rest) (j + 1 + 1) =
        (if peak_gap (p :: q :: rest) (j + 1 + 1) < mg
          then peak_chain_start mg (p :: q :: rest) (j + 1)
          else ((p :: q :: rest).getD (j + 1 + 1) (0, 0)).1) from rfl,
      show peak_chain_start mg (h' :: rest) (j + 1) =
        (if peak_gap (h' :: rest) (j + 1) < mg
          then peak_chain_start mg (h' :: rest) j
          else ((h' :: rest).getD (j + 1) (0, 0)).1) from rfl,
      hg, ih]
    simp

theorem peak_getD_snd_shift (p q h' : ℤ × ℤ) (rest : List (ℤ × ℤ)) (hh : h'.2 = q.2) :
    ∀ i, ((p :: q :: rest).getD (i + 1) (0, 0)).2 = ((h' :: rest).getD i (0, 0)).2 := by
  intro i
  cases i with
  | zero => simp [hh]
  | succ j => simp

/-- Unfolding `fps_from` over a merged head pair. -/
theorem fps_from_merge (mg sg : ℚ) (p q : ℤ × ℤ) (rest : List (ℤ × ℤ)) (supp0 : Bool)
    (hg : peak_gap (p :: q :: rest) 1 < mg) :
    fps_from mg sg (p :: q :: rest) supp0 = fps_from mg sg ((p.1, q.2) :: rest) false := by
  have hh : ((p.1, q.2) : ℤ × ℤ).2 = q.2 := rfl
  have hbase : ((p.1, q.2) : ℤ × ℤ).1 = peak_chain_start mg (p :: q :: rest) 1 := by
    simp [peak_chain_start, hg]
  have hm0 : peak_merged mg (p :: q :: rest) 0 :=
    ⟨by simp only [List.length_cons]; omega, hg⟩
  rw [fps_from, fps_from]
  have hlen : (p :: q :: rest).length = ((p.1, q.2) :: rest).length + 1 := by simp
  have hF0 : (fun i => if peak_merged mg (p :: q :: rest) i ∨ (i = 0 ∧ supp0 = true) ∨
        peak_suppressed mg sg (p :: q :: rest) i then none
      else some (peak_chain_start mg (p :: q :: rest) i,
        ((p :: q :: rest).getD i (0, 0)).2)) 0 = none := if_pos (Or.inl hm0)
  rw [hlen, List.range_succ_eq_map,
    filterMap_cons_none2 (fun i => if peak_merged mg (p :: q :: rest) i ∨ (i = 0 ∧ supp0 = true) ∨
        peak_suppressed mg sg (p :: q :: rest) i then none
      else some (peak_chain_start mg (p :: q :: rest) i,
        ((p :: q :: rest).getD i (0, 0)).2)) 0 _ hF0, List.filterMap_map]
  have htail : ∀ i ∈ List.range (((p.1, q.2) :: rest)).length,
      (if peak_merged mg (p :: q :: rest) (i + 1) ∨ (i + 1 = 0 ∧ supp0 = true) ∨
          peak_suppressed mg sg (p :: q :: rest) (i + 1) then none
        else some (peak_chain_start mg (p :: q :: rest) (i + 1),
          ((p :: q :: rest).getD (i + 1) (0, 0)).2)) =
      (if peak_merged mg ((p.1, q.2) :: rest) i ∨ (i = 0 ∧ false = true) ∨
          peak_suppressed mg sg ((p.1, q.2) :: rest) i then none
        else some (peak_chain_start mg ((p.1, q.2) :: rest) i,
          (((p.1, q.2) :: rest).getD i (0, 0)).2) : Option (ℤ × ℤ)) := by
    intro i hi
    have hmg : peak_merged mg (p :: q :: rest) (i + 1) ↔
        peak_merged mg ((p.1, q.2) :: rest) i := by
      rw [peak_merged, peak_merged]
      constructor
      · rintro ⟨h1, h2⟩
        refine ⟨by simp only [List.length_cons] at h1 ⊢; omega, ?_⟩
        rwa [peak_gap_cons_shift p q _ rest hh (i + 1) (by omega)] at h2
      · rintro ⟨h1, h2⟩
        refine ⟨by simp only [List.length_cons] at h1 ⊢; omega, ?_⟩
        rwa [peak_gap_cons_shift p q _ rest hh (i + 1) (by omega)]
    have hsup : ((i + 1 = 0 ∧ supp0 = true) ∨
          peak_suppressed mg sg (p :: q :: rest) (i + 1)) ↔
        ((i = 0 ∧ false = true) ∨ peak_suppressed mg sg ((p.1, q.2) :: rest) i) := by
      rw [peak_suppressed, peak_suppressed]
      cases i with
      | zero =>
        constructor
        · rintro (⟨h, _⟩ | ⟨_, h2, _⟩)
          · exact absurd h (by omega)
          · exact absurd h2 (not_le.mpr hg)
        · rintro (⟨_, h⟩ | ⟨h, _⟩)
          · exact absurd h (by simp)
          · exact absurd h (by omega)
      | succ j =>
        have hgs := peak_gap_cons_shift p q _ rest hh (j + 1) (by omega)
        constructor
        · rintro (⟨h, _⟩ | ⟨_, h2, h3⟩)
          · exact absurd h (by omega)
          · exact Or.inr ⟨by omega, by rwa [hgs] at h2, by rwa [hgs] at h3⟩
        · rintro (⟨h, _⟩ | ⟨_, h2, h3⟩)
          · exact absurd h (by omega)
          · exact Or.inr ⟨by omega, by rwa [hgs], by rwa [hgs]⟩
    rw [peak_chain_start_shift mg p q _ rest hh hbase i, peak_getD_snd_shift p q _ rest hh i]
    exact if_congr (or_congr hmg hsup) rfl rfl
  exact List.filterMap_congr htail

/-- Unfolding `fps_from` over a non-merged head. -/
theorem fps_from_step (mg sg : ℚ) (p q : ℤ × ℤ) (rest : List (ℤ × ℤ)) (supp0 : Bool)
    (hg : ¬ peak_gap (p :: q :: rest) 1 < mg) :
    fps_from mg sg (p :: q :: rest) supp0 =
      (if supp0 = true then [] else [p]) ++
        fps_from mg sg (q :: rest)
          (decide (mg ≤ peak_gap (p :: q :: rest) 1 ∧ peak_gap (p :: q :: rest) 1 < sg)) := by
  have hh : q.2 = q.2 := rfl
  have hbase : q.1 = peak_chain_start mg (p :: q :: rest) 1 := by
    simp [peak_chain_start, hg]
  rw [fps_from, fps_from]
  have hlen : (p :: q :: rest).length = (q :: rest).length + 1 := by simp
  have hhead : (if peak_merged mg (p :: q :: rest) 0 ∨ (0 = 0 ∧ supp0 = true) ∨
        peak_suppressed mg sg (p :: q :: rest) 0 then none
      else some (peak_chain_start mg (p :: q :: rest) 0,
        ((p :: q :: rest).getD 0 (0, 0)).2)) =
      if supp0 = true then none else some p := by
    by_cases hs : supp0 = true
    · rw [if_pos (Or.inr (Or.inl ⟨rfl, hs⟩)), if_pos hs]
    · rw [if_neg ?_, if_neg hs]
      · simp [peak_chain_start]
      · rintro (⟨_, hm⟩ | ⟨_, h⟩ | ⟨h, _⟩)
        · exact hg hm
        · exact hs h
        · exact absurd h (by omega)
  have htail : ∀ i ∈ List.range ((q :: rest)).length,
      (if peak_merged mg (p :: q :: rest) (i + 1) ∨ (i + 1 = 0 ∧ supp0 = true) ∨
          peak_suppressed mg sg (p :: q :: rest) (i + 1) then none
        else some (peak_chain_start mg (p :: q :: rest) (i + 1),
          ((p :: q :: rest).getD (i + 1) (0, 0)).2)) =
      (if peak_merged mg (q :: rest) i ∨
          (i = 0 ∧ (decide (mg ≤ peak_gap (p :: q :: rest) 1 ∧
            peak_gap (p :: q :: rest) 1 < sg)) = true) ∨
          peak_suppressed mg sg (q :: rest) i then none
        else some (peak_chain_start mg (q :: rest) i, ((q :: rest).getD i (0, 0)).2) :
          Option (ℤ × ℤ)) := by
    intro i hi
    have hmg : peak_merged mg (p :: q :: rest) (i + 1) ↔ peak_merged mg (q :: rest) i := by
      rw [peak_merged, peak_merged]
      constructor
      · rintro ⟨h1, h2⟩
        exact ⟨by simp only [List.length_cons] at h1 ⊢; omega,
          by rwa [peak_gap_cons_shift p q _ rest hh (i + 1) (by omega)] at h2⟩
      · rintro ⟨h1, h2⟩
        exact ⟨by simp only [List.length_cons] at h1 ⊢; omega,
          by rwa [peak_gap_cons_shift p q _ rest hh (i + 1) (by omega)]⟩
    have hsup : ((i + 1 = 0 ∧ supp0 = true) ∨
          peak_suppressed mg sg (p :: q :: rest) (i + 1)) ↔
        ((i = 0 ∧ (decide (mg ≤ peak_gap (p :: q :: rest) 1 ∧
            peak_gap (p :: q :: rest) 1 < sg)) = true) ∨
          peak_suppressed mg sg (q :: rest) i) := by
      rw [peak_suppressed, peak_suppressed]
      cases i with
      | zero =>
        simp only [decide_eq_true_eq]
        constructor
        · rintro (⟨h, _⟩ | ⟨_, h2, h3⟩)
          · exact absurd h (by omega)
          · exact Or.inl ⟨by trivial, h2, h3⟩
        · rintro (⟨_, h2, h3⟩ | ⟨h, _⟩)
          · exact Or.inr ⟨by omega, h2, h3⟩
          · exact absurd h (by omega)
      | succ j =>
        have hgs := peak_gap_cons_shift p q _ rest hh (j + 1) (by omega)
        constructor
        · rintro (⟨h, _⟩ | ⟨_, h2, h3⟩)
          · exact absurd h (by omega)
          · exact Or.inr ⟨by omega, by rwa [hgs] at h2, by rwa [hgs] at h3⟩
        · rintro (⟨h, _⟩ | ⟨_, h2, h3⟩)
          · exact absurd h (by omega)
          · exact Or.inr ⟨by omega, by rwa [hgs], by rwa [hgs]⟩
    rw [peak_chain_start_shift mg p q _ rest hh hbase i, peak_getD_snd_shift p q _ rest hh i]
    exact if_congr (or_congr hmg hsup) rfl rfl
  by_cases hs : supp0 = true
  · have hF0 : (fun i => if peak_merged mg (p :: q :: rest) i ∨ (i = 0 ∧ supp0 = true) ∨
          peak_suppressed mg sg (p :: q :: rest) i then none
        else some (peak_chain_start mg (p :: q :: rest) i,
          ((p :: q :: rest).getD i (0, 0)).2)) 0 = none := hhead.trans (if_pos hs)
    rw [hlen, List.range_succ_eq_map,
      filterMap_cons_none2 (fun i => if peak_merged mg (p :: q :: rest) i ∨ (i = 0 ∧ supp0 = true) ∨
          peak_suppressed mg sg (p :: q :: rest) i then none
        else some (peak_chain_start mg (p :: q :: rest) i,
          ((p :: q :: rest).getD i (0, 0)).2)) 0 _ hF0, List.filterMap_map, if_pos hs, List.nil_append]
    exact List.filterMap_congr htail
  · have hF0 : (fun i => if peak_merged mg (p :: q :: rest) i ∨ (i = 0 ∧ supp0 = true) ∨
          peak_suppressed mg sg (p :: q :: rest) i then none
        else some (peak_chain_start mg (p :: q :: rest) i,
          ((p :: q :: rest).getD i (0, 0)).2)) 0 = some p := hhead.trans (if_neg hs)
    rw [hlen, List.range_succ_eq_map,
      filterMap_cons_some2 (fun i => if peak_merged mg (p :: q :: rest) i ∨ (i = 0 ∧ supp0 = true) ∨
          peak_suppressed mg sg (p :: q :: rest) i then none
        else some (peak_chain_start mg (p :: q :: rest) i,
          ((p :: q :: rest).getD i (0, 0)).2)) 0 _ p hF0, List.filterMap_map, if_neg hs]
    exact congrArg (List.cons p) (List.filterMap_congr htail)

/-- The sequentialized merge/suppress loop computes exactly the claim-side
per-index classification. -/
theorem fp_go_eq_fps_from (mg sg : ℚ) :
    ∀ (rest : List (ℤ × ℤ)) (p : ℤ × ℤ) (supp0 : Bool),
      ((fp_go mg sg p supp0 rest).filter (fun x => !x.2.1 && !x.2.2)).map (fun x => x.1) =
        fps_from mg sg (p :: rest) supp0 := by
  intro rest
  induction rest with
  | nil =>
    intro p supp0
    cases supp0 <;>
      simp [fp_go, fps_from, List.range_succ, peak_merged, peak_suppressed, peak_chain_start]
  | cons q rest ih =>
    intro p supp0
    obtain ⟨s, e⟩ := q
    by_cases hgap : ((s - p.2 : ℤ) : ℚ) < mg
    · have hg1 : peak_gap (p :: (s, e) :: rest) 1 < mg := by
        simpa [peak_gap] using hgap
      rw [fps_from_merge mg sg p (s, e) rest supp0 hg1]
      simp only [fp_go, if_pos hgap]
      rw [show (((p, true, supp0) :: fp_go mg sg (p.1, e) false rest).filter
          (fun x => !x.2.1 && !x.2.2)) =
          (fp_go mg sg (p.1, e) false rest).filter (fun x => !x.2.1 && !x.2.2) by
        simp [List.filter_cons]]
      exact ih (p.1, e) false
    · have hg1 : ¬ peak_gap (p :: (s, e) :: rest) 1 < mg := by
        simpa [peak_gap] using hgap
      rw [fps_from_step mg sg p (s, e) rest supp0 hg1]
      by_cases hsup : mg ≤ ((s - p.2 : ℤ) : ℚ) ∧ ((s - p.2 : ℤ) : ℚ) < sg
      · have hdec : decide (mg ≤ peak_gap (p :: (s, e) :: rest) 1 ∧
            peak_gap (p :: (s, e) :: rest) 1 < sg) = true := by
          rw [decide_eq_true_eq]
          simpa [peak_gap] using hsup
        rw [hdec]
        simp only [fp_go, if_neg hgap, if_pos hsup]
        rw [show (((p, false, supp0) :: fp_go mg sg (s, e) true rest).filter
            (fun x => !x.2.1 && !x.2.2)) =
            (if supp0 = true then [] else [(p, false, supp0)]) ++
              (fp_go mg sg (s, e) true rest).filter (fun x => !x.2.1 && !x.2.2) by
          cases supp0 <;> simp [List.filter_cons]]
        rw [List.map_append, ih (s, e) true]
        cases supp0 <;> simp
      · have hdec : decide (mg ≤ peak_gap (p :: (s, e) :: rest) 1 ∧
            peak_gap (p :: (s, e) :: rest) 1 < sg) = false := by
          rw [decide_eq_false_iff_not]
          intro hc
          exact hsup (by simpa [peak_gap] using hc)
        rw [hdec]
        simp only [fp_go, if_neg hgap, if_neg hsup]
        rw [show (((p, false, supp0) :: fp_go mg sg (s, e) false rest).filter
            (fun x => !x.2.1 && !x.2.2)) =
            (if supp0 = true then [] else [(p, false, supp0)]) ++
              (fp_go mg sg (s, e) false rest).filter (fun x => !x.2.1 && !x.2.2) by
          cases supp0 <;> simp [List.filter_cons]]
        rw [List.map_append, ih (s, e) false]
        cases supp0 <;> simp

/-- C5: the merge/suppress post-processing of `find_hist_peaks` returns, in
original order, exactly the scanned peaks that are neither merged-away
(next gap below `merge_gap = len(hist)/100`) nor suppressed (gap in
`[merge_gap, suppress_gap)` with `suppress_gap = len(hist)/50`); merged
chains carry the chain's original start, and the first peak is never
suppressed. -/
theorem filter_peaks_characterization :
    ∀ (nbins : ℕ) (peaks : List (ℤ × ℤ)),
      filter_peaks nbins peaks = filter_peaks_spec nbins peaks := by
  intro nbins peaks
  cases peaks with
  | nil => rfl
  | cons p rest =>
    have h2 : fps_from ((nbins : ℚ) / 100) ((nbins : ℚ) / 50) (p :: rest) false =
        filter_peaks_spec nbins (p :: rest) := by
      rw [fps_from, filter_peaks_spec]
      apply List.filterMap_congr
      intro i _
      refine if_congr ?_ rfl rfl
      constructor
      · rintro (h | ⟨_, h⟩ | h)
        · exact Or.inl h
        · exact absurd h (by simp)
        · exact Or.inr h
      · rintro (h | h)
        · exact Or.inl h
        · exact Or.inr (Or.inr h)
    simp only [filter_peaks]
    exact (fp_go_eq_fps_from _ _ rest p false).trans h2

theorem fll_cond_zero (sq : ℚ → ℚ) (os : OnlineStats) (oi : ℕ) (x : ℚ) (xs : List ℚ) :
    fll_cond sq os oi (x :: xs) 0 ↔
      (3 < oi + 1 ∧ 3 * (os.accumulate x).std sq 0 < |x - (os.accumulate x).mean|) := by
  unfold fll_cond
  simp

theorem fll_cond_shift (sq : ℚ → ℚ) (os : OnlineStats) (oi : ℕ) (x : ℚ) (xs : List ℚ)
    (j : ℕ) : fll_cond sq os oi (x :: xs) (j + 1) ↔
      fll_cond sq (os.accumulate x) (oi + 1) xs j := by
  unfold fll_cond
  rw [List.take_succ_cons, List.foldl_cons, List.getD_cons_succ,
    show oi + (j + 1) + 1 = oi + 1 + j + 1 by omega]

theorem fll_edge_at_iff_cond (sq : ℚ → ℚ) (xs : List ℚ) (i : ℕ) :
    fll_edge_at sq xs i ↔ fll_cond sq OnlineStats.empty 0 xs i := by
  unfold fll_edge_at fll_cond fll_stats
  rw [Nat.zero_add]

theorem fll_find_edge_none_iff (sq : ℚ → ℚ) (buf_size : ℕ) :
    ∀ (samples : List (ℚ × ℚ)) (b : ℕ) (buf : List ℚ) (os : OnlineStats) (oi : ℕ),
      (fll_find_edge buf_size sq buf os oi b samples = none ↔
        ∀ i, i < min samples.length b →
          ¬ fll_cond sq os oi (samples.map Prod.snd) i) := by
  intro samples
  induction samples with
  | nil =>
    intro b buf os oi
    cases b <;> simp [fll_find_edge]
  | cons s rest ih =>
    intro b buf os oi
    cases b with
    | zero => simp [fll_find_edge]
    | succ b =>
      simp only [List.map_cons]
      by_cases hc : 3 < oi + 1 ∧
          3 * (os.accumulate s.2).std sq 0 < |s.2 - (os.accumulate s.2).mean|
      · simp only [fll_find_edge, if_pos hc]
        constructor
        · intro h
          exact Option.noConfusion h
        · intro h
          exact absurd ((fll_cond_zero sq os oi s.2 (rest.map Prod.snd)).mpr hc)
            (h 0 (by simp [Nat.lt_min]))
      · simp only [fll_find_edge, if_neg hc]
        rw [ih b (deque_append buf_size buf s.2) (os.accumulate s.2) (oi + 1)]
        constructor
        · intro h i hi
          cases i with
          | zero =>
            rw [fll_cond_zero]
            exact hc
          | succ j =>
            rw [fll_cond_shift]
            refine h j ?_
            simp only [List.length_cons] at hi
            omega
        · intro h i hi
          have hj := h (i + 1) (by simp only [List.length_cons]; omega)
          rw [fll_cond_shift] at hj
          exact hj

/-- C7: `find_logic_levels` treats a sample as the first edge event only
once at least four samples have been accumulated and only when the sample
lies more than three standard deviations from the running mean of the
online statistics: it returns the no-result value `none` exactly when
neither the consumed input nor the `max_samples` budget contains such a
sample, and any successful result hands the buffered values on with
`bins = 100` and `use_kde = true`. -/
theorem find_logic_levels_edge_detection :
    ∀ (sq : ℚ → ℚ) (max_samples buf_size : ℕ) (samples : List (ℚ × ℚ)),
      (find_logic_levels sq max_samples buf_size samples = none ↔
        ∀ i, i < min samples.length max_samples →
          ¬ fll_edge_at sq (samples.map Prod.snd) i) ∧
      (∀ r, find_logic_levels sq max_samples buf_size samples = some r →
        r.2 = (100, true)) := by
  intro sq ms bs samples
  constructor
  · have hmap : find_logic_levels sq ms bs samples = none ↔
        fll_find_edge bs sq [] OnlineStats.empty 0 ms samples = none := by
      unfold find_logic_levels
      cases fll_find_edge bs sq [] OnlineStats.empty 0 ms samples <;> simp
    rw [hmap, fll_find_edge_none_iff sq bs samples ms [] OnlineStats.empty 0]
    constructor
    · intro h i hi hcon
      exact h i hi ((fll_edge_at_iff_cond sq (samples.map Prod.snd) i).mp hcon)
    · intro h i hi hcon
      exact h i hi ((fll_edge_at_iff_cond sq (samples.map Prod.snd) i).mpr hcon)
  · intro r hr
    unfold find_logic_levels at hr
    rcases hopt : fll_find_edge bs sq [] OnlineStats.empty 0 ms samples with _ | buf
    · rw [hopt] at hr
      exact Option.noConfusion hr
    · rw [hopt] at hr
      have : (buf, (100 : ℕ), true) = r := Option.some.inj hr
      rw [← this]

/-- Closed instantiation of the C7 theorem: on
`[(0, 0), (1, 0), (2, 0), (3, 100)]` the fourth sample is an edge event
(running mean 25, `sqrt` modelled as the constant 0), so the call returns
the four buffered values with `bins = 100`, `use_kde = true`. -/
theorem find_logic_levels_edge_detection_witness :
    find_logic_levels (fun _ => 0) 10 4 [(0, 0), (1, 0), (2, 0), (3, 100)] =
        some ([0, 0, 0, 100], 100, true) ∧
      (([0, 0, 0, 100], 100, true) : List ℚ × ℕ × Bool).2 = (100, true) := by
  have h : find_logic_levels (fun _ => 0) 10 4 [(0, 0), (1, 0), (2, 0), (3, 100)] =
      some ([0, 0, 0, 100], 100, true) := by
    norm_num [find_logic_levels, fll_find_edge, fll_finish, deque_append,
      OnlineStats.empty, OnlineStats.accumulate, OnlineStats.mean, OnlineStats.std,
      OnlineStats.variance]
  exact ⟨h, (find_logic_levels_edge_detection (fun _ => 0) 10 4
    [(0, 0), (1, 0), (2, 0), (3, 100)]).2 ([0, 0, 0, 100], 100, true) h⟩

/-- C8 counterexample: with `sample_rate = 1`, span grid `[0, 2, 4, 6]` and
spectrum `[0, 10, 10, 0]`, the peak detector finds the peak `(1, 3)` and
the dominant span is `2 ≠ 0`, yet `find_symbol_rate` still returns the
sentinel 0 (because `int(1 / 2) = 0`), so 0 is not returned *exactly* when
no peak is found or the span is zero. -/
theorem find_symbol_rate_counterexample :
    find_symbol_rate (fun _ => 0) 1 [0, 2, 4, 6] [0, 10, 10, 0] = .ok 0 ∧
      find_hist_peaks (fun _ => 0) [0, 10, 10, 0] = [(1, 3)] ∧
      max_by_snd (py_slice (([0, 2, 4, 6] : List ℚ).zip [0, 10, 10, 0]) 1 4) =
        .ok (2, 10) ∧ (2 : ℚ) ≠ 0 := by
  refine ⟨?_, ?_, ?_, by norm_num⟩
  · norm_num [find_symbol_rate, find_hist_peaks, hist_t2, hist_t1, hist_pop_mean,
      scan_peaks, scan_go, filter_peaks, fp_go, OnlineStats.empty, OnlineStats.accumulate,
      OnlineStats.mean, OnlineStats.std, OnlineStats.variance, py_slice, max_by_snd,
      py_int, Int.toNat]
  · norm_num [find_hist_peaks, hist_t2, hist_t1, hist_pop_mean, scan_peaks, scan_go,
      filter_peaks, fp_go, OnlineStats.empty, OnlineStats.accumulate, OnlineStats.mean,
      OnlineStats.std, OnlineStats.variance]
  · norm_num [py_slice, max_by_snd, Int.toNat]

/-- C8 (amended): `find_symbol_rate` returns the sentinel 0 when the peak
detector finds no peak; when a peak exists and the maximal-value bin of
the leftmost peak's range is found, the result is 0 if the dominant span
is zero and otherwise `int(sample_rate / peak_span)` — which is itself 0
whenever `sample_rate < peak_span`, so 0 is returned if no peak is found,
the span is zero, *or* the truncated quotient is zero.  Python `int()`
truncation agrees with `floor` on the nonnegative quotients arising
here. -/
theorem find_symbol_rate_sentinel :
    ∀ (sq : ℚ → ℚ) (sample_rate : ℚ) (x_hps hps : List ℚ),
      ((find_hist_peaks sq hps).length < 1 →
        find_symbol_rate sq sample_rate x_hps hps = .ok 0) ∧
      (∀ m, 1 ≤ (find_hist_peaks sq hps).length →
        max_by_snd (py_slice (x_hps.zip hps)
            ((find_hist_peaks sq hps).headD (0, 0)).1
            (((find_hist_peaks sq hps).headD (0, 0)).2 + 1)) = .ok m →
        find_symbol_rate sq sample_rate x_hps hps =
            .ok (if m.1 = 0 then 0 else py_int (sample_rate / m.1)) ∧
          (find_symbol_rate sq sample_rate x_hps hps = .ok 0 ↔
            m.1 = 0 ∨ py_int (sample_rate / m.1) = 0)) ∧
      (∀ q : ℚ, 0 ≤ q → py_int q = ⌊q⌋) := by
  intro sq rate xh hps
  refine ⟨fun h => ?_, fun m h1 hm => ?_, fun q hq => ?_⟩
  · simp only [find_symbol_rate, if_pos h]
  · have heq : find_symbol_rate sq rate xh hps =
        .ok (if m.1 = 0 then 0 else py_int (rate / m.1)) := by
      simp only [find_symbol_rate, if_neg (not_lt.mpr h1), hm]
      by_cases hz : m.1 = 0
      · simp [hz]
      · simp [hz]
    refine ⟨heq, ?_⟩
    rw [heq]
    constructor
    · intro hok
      have hv := Except.ok.inj hok
      by_cases hz : m.1 = 0
      · exact Or.inl hz
      · rw [if_neg hz] at hv
        exact Or.inr hv
    · rintro (hz | hz)
      · rw [if_pos hz]
      · by_cases hz0 : m.1 = 0
        · rw [if_pos hz0]
        · rw [if_neg hz0, hz]
  · rw [py_int, if_neg (not_lt.mpr hq)]

/-- Closed instantiation of the amended C8 theorem: with `sample_rate = 10`
on the same spectrum the dominant span is 2 and the returned rate is
`int(10 / 2)`; and `py_int` agrees with `floor` at the nonnegative 5. -/
theorem find_symbol_rate_sentinel_witness :
    (1 ≤ (find_hist_peaks (fun _ => 0) [0, 10, 10, 0]).length ∧
      max_by_snd (py_slice (([0, 2, 4, 6] : List ℚ).zip [0, 10, 10, 0])
          ((find_hist_peaks (fun _ => 0) [0, 10, 10, 0]).headD (0, 0)).1
          (((find_hist_peaks (fun _ => 0) [0, 10, 10, 0]).headD (0, 0)).2 + 1)) =
        .ok (2, 10) ∧
      find_symbol_rate (fun _ => 0) 10 [0, 2, 4, 6] [0, 10, 10, 0] =
        .ok (if (2 : ℚ) = 0 then 0 else py_int (10 / 2))) ∧
      (0 ≤ (5 : ℚ) ∧ py_int 5 = ⌊(5 : ℚ)⌋) := by
  have h1 : 1 ≤ (find_hist_peaks (fun _ => 0) [0, 10, 10, 0]).length := by
    norm_num [find_hist_peaks, hist_t2, hist_t1, hist_pop_mean, scan_peaks, scan_go,
      filter_peaks, fp_go, OnlineStats.empty, OnlineStats.accumulate, OnlineStats.mean,
      OnlineStats.std, OnlineStats.variance]
  have hm : max_by_snd (py_slice (([0, 2, 4, 6] : List ℚ).zip [0, 10, 10, 0])
      ((find_hist_peaks (fun _ => 0) [0, 10, 10, 0]).headD (0, 0)).1
      (((find_hist_peaks (fun _ => 0) [0, 10, 10, 0]).headD (0, 0)).2 + 1)) =
      .ok (2, 10) := by
    norm_num [find_hist_peaks, hist_t2, hist_t1, hist_pop_mean, scan_peaks, scan_go,
      filter_peaks, fp_go, OnlineStats.empty, OnlineStats.accumulate, OnlineStats.mean,
      OnlineStats.std, OnlineStats.variance, py_slice, max_by_snd, Int.toNat]
  exact ⟨⟨h1, hm, ((find_symbol_rate_sentinel (fun _ => 0) 10 [0, 2, 4, 6]
      [0, 10, 10, 0]).2.1 (2, 10) h1 hm).1⟩,
    by norm_num, (find_symbol_rate_sentinel (fun _ => 0) 10 [0, 2, 4, 6]
      [0, 10, 10, 0]).2.2 5 (by norm_num)⟩

theorem es_advance_cur_time (es : EdgeSequence) (o : Option ℚ) :
    (es.advance o).cur_time = es.cur_time + o.getD es.time_step := rfl

theorem es_ate_loop_delta (start : ℤ) :
    ∀ (rest : List Edge) (ts ct : ℚ) (cur nxt : Edge) (ie : Bool),
      (es_ate_loop start ts ct cur nxt rest ie).1 -
        (es_ate_loop start ts ct cur nxt rest ie).2.1 = ts - ct := by
  intro rest
  induction rest with
  | nil =>
    intro ts ct cur nxt ie
    by_cases h : cur.2 = start
    · simp only [es_ate_loop, if_pos h]
      ring
    · simp only [es_ate_loop, if_neg h]
  | cons e rest2 ih =>
    intro ts ct cur nxt ie
    by_cases h : cur.2 = start
    · simp only [es_ate_loop, if_pos h]
      rw [ih]
      ring
    · simp only [es_ate_loop, if_neg h]

theorem es_ate_loop_nonneg (start : ℤ) :
    ∀ (rest : List Edge) (ts ct : ℚ) (cur nxt : Edge) (ie : Bool),
      ct ≤ nxt.1 → List.Chain (fun a b : Edge => a.1 ≤ b.1) nxt rest →
      ts ≤ (es_ate_loop start ts ct cur nxt rest ie).1 := by
  intro rest
  induction rest with
  | nil =>
    intro ts ct cur nxt ie hct _
    by_cases h : cur.2 = start
    · simp only [es_ate_loop, if_pos h]
      linarith
    · simp only [es_ate_loop, if_neg h]
      exact le_refl ts
  | cons e rest2 ih =>
    intro ts ct cur nxt ie hct hch
    cases hch with
    | cons h1 h2 =>
      by_cases h : cur.2 = start
      · simp only [es_ate_loop, if_pos h]
        have hr := ih (ts + (nxt.1 - ct)) nxt.1 nxt e ie h1 h2
        linarith
      · simp only [es_ate_loop, if_neg h]
        exact le_refl ts

theorem es_advance_to_edge_of_end (es : EdgeSequence) (h : es.it_end = true) :
    es.advance_to_edge = (0, es) := by
  simp only [EdgeSequence.advance_to_edge, h, if_true]

theorem es_advance_to_edge_delta (es : EdgeSequence) (h : es.it_end = false) :
    (es.advance_to_edge).2.cur_time = es.cur_time + (es.advance_to_edge).1 := by
  have hd := es_ate_loop_delta es.cur_states.2 es.edges 0 es.cur_time es.cur_states
    es.next_states es.it_end
  simp only [EdgeSequence.advance_to_edge, h, Bool.false_eq_true, if_false]
  simp only [EdgeSequence.advance_to_edge, h, Bool.false_eq_true, if_false] at hd ⊢
  linarith

theorem es_advance_to_edge_nonneg (es : EdgeSequence) (hwf : es_wf es) :
    0 ≤ (es.advance_to_edge).1 := by
  cases hie : es.it_end with
  | true =>
    rw [es_advance_to_edge_of_end es hie]
  | false =>
    have hn := es_ate_loop_nonneg es.cur_states.2 es.edges 0 es.cur_time es.cur_states
      es.next_states es.it_end (hwf.1 hie) hwf.2
    simp only [EdgeSequence.advance_to_edge, hie, Bool.false_eq_true, if_false]
    rw [hie] at hn
    exact hn

theorem foldl_min_mem (l : List (ℕ × EdgeSequence)) :
    ∀ a : ℕ × EdgeSequence,
      l.foldl (fun acc y => if y.2.next_states.1 < acc.2.next_states.1 then y else acc) a
        ∈ a :: l := by
  induction l with
  | nil => intro a; simp
  | cons y l2 ih =>
    intro a
    rw [List.foldl_cons]
    rcases List.mem_cons.mp
        (ih (if y.2.next_states.1 < a.2.next_states.1 then y else a)) with h1 | h1
    · rw [h1]
      by_cases hc : y.2.next_states.1 < a.2.next_states.1
      · rw [if_pos hc]
        exact List.mem_cons_of_mem _ (List.mem_cons_self _ _)
      · rw [if_neg hc]
        exact List.mem_cons_self _ _
    · exact List.mem_cons_of_mem _ (List.mem_cons_of_mem _ h1)

theorem mes_min_mem (l : List (ℕ × EdgeSequence)) (x : ℕ × EdgeSequence)
    (h : mes_min l = some x) : x ∈ l := by
  cases l with
  | nil => exact Option.noConfusion h
  | cons a l2 =>
    simp only [mes_min] at h
    rw [← Option.some.inj h]
    exact foldl_min_mem l2 a

theorem mes_step_aligned (mes : MultiEdgeSequence) (i : ℕ) (s : EdgeSequence)
    (nm : String) (hal : mes_time_aligned mes) (hs : s ∈ mes.sequences)
    (hwf : es_wf s) : mes_time_aligned (mes_step mes i s nm).2 := by
  have hnn : 0 ≤ (s.advance_to_edge).1 := es_advance_to_edge_nonneg s hwf
  have hdelta : (s.advance_to_edge).2.cur_time =
      s.cur_time + (s.advance_to_edge).1 := by
    cases hie : s.it_end with
    | true =>
      rw [es_advance_to_edge_of_end s hie]
      simp
    | false => exact es_advance_to_edge_delta s hie
  have hval : ∀ (j : ℕ) (z : EdgeSequence), z ∈ mes.sequences →
      (if j = i then (s.advance_to_edge).2
        else if 0 < (s.advance_to_edge).1 then z.advance (some (s.advance_to_edge).1)
        else z).cur_time = s.cur_time + (s.advance_to_edge).1 := by
    intro j z hz
    by_cases hji : j = i
    · rw [if_pos hji]
      exact hdelta
    · rw [if_neg hji]
      by_cases ht : 0 < (s.advance_to_edge).1
      · rw [if_pos ht, es_advance_cur_time, hal z hz s hs]
        rfl
      · rw [if_neg ht, hal z hz s hs, le_antisymm (not_lt.mp ht) hnn, add_zero]
  intro x hx y hy
  simp only [mes_step] at hx hy
  obtain ⟨p, hp, hfp⟩ := List.mem_map.mp hx
  obtain ⟨q, hq, hfq⟩ := List.mem_map.mp hy
  obtain ⟨pj, pz⟩ := p
  obtain ⟨qj, qz⟩ := q
  have hps : pz ∈ mes.sequences := (List.of_mem_zip hp).2
  have hqs : qz ∈ mes.sequences := (List.of_mem_zip hq).2
  have hxv : x.cur_time = s.cur_time + (s.advance_to_edge).1 := by
    rw [← hfp]
    exact hval pj pz hps
  have hyv : y.cur_time = s.cur_time + (s.advance_to_edge).1 := by
    rw [← hfq]
    exact hval qj qz hqs
  rw [hxv, hyv]

/-- C9: starting from a `MultiEdgeSequence` whose channel cursors all
report the same current time, `advance` (with an explicit time step, or
with the omitted-argument default when the stored per-channel defaults
agree, as the constructor guarantees) and `advance_to_edge` (with or
without a channel name, for well-formed cursors) leave all channel cursors
reporting the same current time whenever they return normally. -/
theorem multi_edge_sequence_time_alignment :
    ∀ (mes : MultiEdgeSequence), mes_time_aligned mes →
      (∀ ts : ℚ, mes_time_aligned (mes.advance (some ts))) ∧
      ((∀ s ∈ mes.sequences, ∀ s2 ∈ mes.sequences, s.time_step = s2.time_step) →
        mes_time_aligned (mes.advance none)) ∧
      ((∀ s ∈ mes.sequences, es_wf s) →
        ∀ (cn : Option String) (r : (ℚ × String) × MultiEdgeSequence),
          mes.advance_to_edge cn = .ok r → mes_time_aligned r.2) := by
  intro mes hal
  refine ⟨fun ts => ?_, fun hts => ?_, fun hwf cn r hr => ?_⟩
  · intro x hx y hy
    simp only [MultiEdgeSequence.advance] at hx hy
    obtain ⟨a, ha, hfa⟩ := List.mem_map.mp hx
    obtain ⟨b, hb, hfb⟩ := List.mem_map.mp hy
    rw [← hfa, ← hfb, es_advance_cur_time, es_advance_cur_time, hal a ha b hb]
    rfl
  · intro x hx y hy
    simp only [MultiEdgeSequence.advance] at hx hy
    obtain ⟨a, ha, hfa⟩ := List.mem_map.mp hx
    obtain ⟨b, hb, hfb⟩ := List.mem_map.mp hy
    rw [← hfa, ← hfb, es_advance_cur_time, es_advance_cur_time, hal a ha b hb,
      hts a ha b hb]
  · cases cn with
    | none =>
      rcases hmin : mes_min (((List.range mes.sequences.length).zip
          mes.sequences).filter (fun p => !p.2.it_end)) with _ | p
      · simp only [MultiEdgeSequence.advance_to_edge, hmin] at hr
        rw [← Except.ok.inj hr]
        exact hal
      · obtain ⟨i, s⟩ := p
        simp only [MultiEdgeSequence.advance_to_edge, hmin] at hr
        rw [← Except.ok.inj hr]
        have hzip : (i, s) ∈ (List.range mes.sequences.length).zip mes.sequences :=
          (List.mem_filter.mp (mes_min_mem _ _ hmin)).1
        have hs : s ∈ mes.sequences := (List.of_mem_zip hzip).2
        exact mes_step_aligned mes i s _ hal hs (hwf s hs)
    | some nm =>
      rcases hix : mes_chan_ix nm mes.channel_names with _ | idx
      · simp only [MultiEdgeSequence.advance_to_edge, hix] at hr
        exact Except.noConfusion hr
      · simp only [MultiEdgeSequence.advance_to_edge, hix] at hr
        rw [← Except.ok.inj hr]
        by_cases hlt : idx < mes.sequences.length
        · have hs : mes.sequences.getD idx es_dflt ∈ mes.sequences := by
            rw [List.getD_eq_getElem mes.sequences es_dflt hlt]
            exact List.getElem_mem hlt
          exact mes_step_aligned mes idx _ nm hal hs (hwf _ hs)
        · have hdq : mes.sequences.getD idx es_dflt = es_dflt :=
            List.getD_eq_default _ _ (le_of_not_lt hlt)
          rw [hdq]
          intro x hx y hy
          simp only [mes_step] at hx hy
          obtain ⟨p, hp, hfp⟩ := List.mem_map.mp hx
          obtain ⟨q, hq, hfq⟩ := List.mem_map.mp hy
          obtain ⟨pj, pz⟩ := p
          obtain ⟨qj, qz⟩ := q
          have hpr : pj < mes.sequences.length :=
            List.mem_range.mp (List.of_mem_zip hp).1
          have hqr : qj < mes.sequences.length :=
            List.mem_range.mp (List.of_mem_zip hq).1
          have hps : pz ∈ mes.sequences := (List.of_mem_zip hp).2
          have hqs : qz ∈ mes.sequences := (List.of_mem_zip hq).2
          have ht0 : (es_dflt.advance_to_edge).1 = 0 := rfl
          have hval2 : ∀ (j : ℕ) (z : EdgeSequence), j ≠ idx →
              (if j = idx then (es_dflt.advance_to_edge).2
                else if 0 < (es_dflt.advance_to_edge).1 then
                  z.advance (some (es_dflt.advance_to_edge).1)
                else z).cur_time = z.cur_time := by
            intro j z hj
            rw [if_neg hj, if_neg (by rw [ht0]; exact lt_irrefl 0)]
          have hxv : x.cur_time = pz.cur_time := by
            rw [← hfp]
            exact hval2 pj pz (by omega)
          have hyv : y.cur_time = qz.cur_time := by
            rw [← hfq]
            exact hval2 qj qz (by omega)
          rw [hxv, hyv]
          exact hal pz hps qz hqs

/-- Closed instantiation of the C9 theorem on a two-channel sequence with
both cursors at time 0: alignment holds after a plain advance, a default
advance, and an unnamed `advance_to_edge` (which steps channel a to its
edge at time 2 and drags channel b along). -/
theorem multi_edge_sequence_time_alignment_witness :
    mes_time_aligned ⟨["a", "b"], [⟨[(4, 1)], 1, false, (0, 0), (2, 1), 0⟩,
        ⟨[], 1, false, (0, 1), (3, 0), 0⟩]⟩ ∧
      mes_time_aligned (MultiEdgeSequence.advance
        ⟨["a", "b"], [⟨[(4, 1)], 1, false, (0, 0), (2, 1), 0⟩,
          ⟨[], 1, false, (0, 1), (3, 0), 0⟩]⟩ (some 1)) ∧
      (∀ s ∈ (⟨["a", "b"], [⟨[(4, 1)], 1, false, (0, 0), (2, 1), 0⟩,
          ⟨[], 1, false, (0, 1), (3, 0), 0⟩]⟩ :
            MultiEdgeSequence).sequences,
        ∀ s2 ∈ (⟨["a", "b"], [⟨[(4, 1)], 1, false, (0, 0), (2, 1), 0⟩,
          ⟨[], 1, false, (0, 1), (3, 0), 0⟩]⟩ :
            MultiEdgeSequence).sequences, s.time_step = s2.time_step) ∧
      mes_time_aligned (MultiEdgeSequence.advance
        ⟨["a", "b"], [⟨[(4, 1)], 1, false, (0, 0), (2, 1), 0⟩,
          ⟨[], 1, false, (0, 1), (3, 0), 0⟩]⟩ none) ∧
      (∀ s ∈ (⟨["a", "b"], [⟨[(4, 1)], 1, false, (0, 0), (2, 1), 0⟩,
          ⟨[], 1, false, (0, 1), (3, 0), 0⟩]⟩ :
            MultiEdgeSequence).sequences, es_wf s) ∧
      MultiEdgeSequence.advance_to_edge
        ⟨["a", "b"], [⟨[(4, 1)], 1, false, (0, 0), (2, 1), 0⟩,
          ⟨[], 1, false, (0, 1), (3, 0), 0⟩]⟩ none =
        .ok ((2, "a"), ⟨["a", "b"], [⟨[], 1, false, (2, 1), (4, 1), 2⟩,
          ⟨[], 1, false, (0, 1), (3, 0), 2⟩]⟩) ∧
      mes_time_aligned ⟨["a", "b"], [⟨[], 1, false, (2, 1), (4, 1), 2⟩,
        ⟨[], 1, false, (0, 1), (3, 0), 2⟩]⟩ := by
  have hal : mes_time_aligned ⟨["a", "b"], [⟨[(4, 1)], 1, false, (0, 0), (2, 1), 0⟩,
      ⟨[], 1, false, (0, 1), (3, 0), 0⟩]⟩ := by
    unfold mes_time_aligned
    decide
  have hts : ∀ s ∈ (⟨["a", "b"], [⟨[(4, 1)], 1, false, (0, 0), (2, 1), 0⟩,
      ⟨[], 1, false, (0, 1), (3, 0), 0⟩]⟩ :
        MultiEdgeSequence).sequences,
      ∀ s2 ∈ (⟨["a", "b"], [⟨[(4, 1)], 1, false, (0, 0), (2, 1), 0⟩,
      ⟨[], 1, false, (0, 1), (3, 0), 0⟩]⟩ :
        MultiEdgeSequence).sequences, s.time_step = s2.time_step := by decide
  have hwf : ∀ s ∈ (⟨["a", "b"], [⟨[(4, 1)], 1, false, (0, 0), (2, 1), 0⟩,
      ⟨[], 1, false, (0, 1), (3, 0), 0⟩]⟩ :
        MultiEdgeSequence).sequences, es_wf s := by
    simp [es_wf, List.chain_cons]
    norm_num
  have hok : MultiEdgeSequence.advance_to_edge
      ⟨["a", "b"], [⟨[(4, 1)], 1, false, (0, 0), (2, 1), 0⟩,
        ⟨[], 1, false, (0, 1), (3, 0), 0⟩]⟩ none =
      .ok ((2, "a"), ⟨["a", "b"], [⟨[], 1, false, (2, 1), (4, 1), 2⟩,
        ⟨[], 1, false, (0, 1), (3, 0), 2⟩]⟩) := by
    norm_num [MultiEdgeSequence.advance_to_edge, mes_min, mes_step,
      EdgeSequence.advance_to_edge, es_ate_loop, EdgeSequence.advance, es_advance_loop,
      List.range_succ]
  refine ⟨hal, (multi_edge_sequence_time_alignment _ hal).1 1, hts,
    (multi_edge_sequence_time_alignment _ hal).2.1 hts, hwf, hok, ?_⟩
  have h9 := (multi_edge_sequence_time_alignment _ hal).2.2 hwf none
    ((2, "a"), ⟨["a", "b"], [⟨[], 1, false, (2, 1), (4, 1), 2⟩,
      ⟨[], 1, false, (0, 1), (3, 0), 2⟩]⟩) hok
  exact h9

theorem fbt_mid_ix_go_first (mid : ℚ) (cs : List ℚ) :
    ∀ (k i : ℕ), i < cs.length → mid ≤ cs.getD i 0 →
      (∀ j, j < i → cs.getD j 0 < mid) → fbt_mid_ix_go mid k cs = k + i := by
  induction cs with
  | nil => intro k i hi _ _; exact absurd hi (by simp)
  | cons x rest ih =>
    intro k i hi hmid hlt
    cases i with
    | zero =>
      have hx : mid ≤ x := by simpa using hmid
      simp [fbt_mid_ix_go, ge_iff_le, hx]
    | succ j =>
      have hx : x < mid := by simpa using hlt 0 (Nat.succ_pos j)
      have hrec := ih (k + 1) j (by simpa using Nat.lt_of_succ_lt_succ hi)
        (by simpa using hmid)
        (fun m hm => by simpa using hlt (m + 1) (Nat.succ_lt_succ hm))
      rw [show fbt_mid_ix_go mid k (x :: rest) =
          if x ≥ mid then k else fbt_mid_ix_go mid (k + 1) rest from rfl,
        if_neg (not_le.mpr hx), hrec]
      omega

/-- C6: `find_bot_top_hist_peaks` returns the no-result value `none`
exactly when the peak detector finds fewer than two peaks in the
histogram; otherwise it returns the bin-center coordinates of the
population-midpoint bins of the first and of the last detected peak,
sorted ascending (so the returned pair is always ordered).  The
population-midpoint index located by the code's `mid_ix` loop is the
first bin at which the peak's cumulative sum reaches the floor-halved
total (`peak_center` slices the histogram to the peak, builds the
cumulative sum and floor-halves its last entry exactly as the code
does). -/
theorem find_bot_top_two_peak_midpoints :
    (∀ (sq : ℚ → ℚ) (hist bin_centers : List ℚ),
        (find_bot_top_hist_peaks sq hist bin_centers = none ↔
          (find_hist_peaks sq hist).length < 2) ∧
        (2 ≤ (find_hist_peaks sq hist).length →
          find_bot_top_hist_peaks sq hist bin_centers =
            some (min (peak_center hist bin_centers
                    ((find_hist_peaks sq hist).headD (0, 0)))
                  (peak_center hist bin_centers
                    ((find_hist_peaks sq hist).getLastD (0, 0))),
                max (peak_center hist bin_centers
                    ((find_hist_peaks sq hist).headD (0, 0)))
                  (peak_center hist bin_centers
                    ((find_hist_peaks sq hist).getLastD (0, 0))))) ∧
        (∀ b t, find_bot_top_hist_peaks sq hist bin_centers = some (b, t) → b ≤ t)) ∧
    (∀ (mid : ℚ) (cs : List ℚ) (i : ℕ), i < cs.length → mid ≤ cs.getD i 0 →
        (∀ j, j < i → cs.getD j 0 < mid) → fbt_mid_ix mid cs = i) := by
  constructor
  · intro sq hist bin_centers
    refine ⟨⟨fun h => ?_, fun h => ?_⟩, fun h => ?_, fun b t h => ?_⟩
    · by_contra hlen
      simp only [find_bot_top_hist_peaks, if_neg hlen] at h
      exact Option.noConfusion h
    · simp only [find_bot_top_hist_peaks, if_pos h]
    · simp only [find_bot_top_hist_peaks, if_neg (not_lt.mpr h)]
    · by_cases hlen : (find_hist_peaks sq hist).length < 2
      · simp only [find_bot_top_hist_peaks, if_pos hlen] at h
        exact Option.noConfusion h
      · simp only [find_bot_top_hist_peaks, if_neg hlen, Option.some.injEq,
          Prod.mk.injEq] at h
        obtain ⟨hb, ht⟩ := h
        rw [← hb, ← ht]
        exact min_le_max
  · intro mid cs i h1 h2 h3
    rw [fbt_mid_ix, fbt_mid_ix_go_first mid cs 0 i h1 h2 h3]
    omega

/-- Closed instantiation of the C6 theorem: the two-peak histogram
`[10, 0, 10, 0, 0, 0]` (peaks `(0, 1)` and `(2, 3)` under `sqrt = 0`)
and the `mid_ix` characterization on `[4, 10, 20]` with `mid = 5`. -/
theorem find_bot_top_two_peak_midpoints_witness :
    (2 ≤ (find_hist_peaks (fun _ => 0) [10, 0, 10, 0, 0, 0]).length ∧
        find_bot_top_hist_peaks (fun _ => 0) [10, 0, 10, 0, 0, 0] [0, 1, 2, 3, 4, 5] =
          some (min (peak_center [10, 0, 10, 0, 0, 0] [0, 1, 2, 3, 4, 5]
                  ((find_hist_peaks (fun _ => 0) [10, 0, 10, 0, 0, 0]).headD (0, 0)))
                (peak_center [10, 0, 10, 0, 0, 0] [0, 1, 2, 3, 4, 5]
                  ((find_hist_peaks (fun _ => 0) [10, 0, 10, 0, 0, 0]).getLastD (0, 0))),
              max (peak_center [10, 0, 10, 0, 0, 0] [0, 1, 2, 3, 4, 5]
                  ((find_hist_peaks (fun _ => 0) [10, 0, 10, 0, 0, 0]).headD (0, 0)))
                (peak_center [10, 0, 10, 0, 0, 0] [0, 1, 2, 3, 4, 5]
                  ((find_hist_peaks (fun _ => 0) [10, 0, 10, 0, 0, 0]).getLastD (0, 0))))) ∧
      (1 < ([4, 10, 20] : List ℚ).length ∧ (5 : ℚ) ≤ ([4, 10, 20] : List ℚ).getD 1 0 ∧
        ([4, 10, 20] : List ℚ).getD 0 0 < 5 ∧ fbt_mid_ix 5 [4, 10, 20] = 1) := by
  have hlen : 2 ≤ (find_hist_peaks (fun _ => 0) [10, 0, 10, 0, 0, 0]).length := by
    norm_num [find_hist_peaks, hist_t2, hist_t1, hist_pop_mean, scan_peaks, scan_go,
      filter_peaks, fp_go, OnlineStats.empty, OnlineStats.accumulate, OnlineStats.mean,
      OnlineStats.std, OnlineStats.variance]
  refine ⟨⟨hlen, (find_bot_top_two_peak_midpoints.1 (fun _ => 0) _ _).2.1 hlen⟩,
    by decide, by decide, by decide,
    find_bot_top_two_peak_midpoints.2 5 [4, 10, 20] 1 (by decide) (by decide)
      (fun j hj => by
        have hj0 : j = 0 := by omega
        subst hj0
        decide)⟩

example :
    find_edges 0 1 (2/5) [(0, 0), (1, 0), (2, 1), (3, 1)] = .ok [(0, 0), (2, 1)] := by
  norm_num [find_edges, fe_loop, fe_get_sample_zone, fe_is_stable_zone, fe_zone_to_logic_state]
  decide

example :
    find_edges 0 1 (2/5) [(0, 0), (1, 1), (2, 0)] = .ok [(0, 0), (2, 0)] := by
  norm_num [find_edges, fe_loop, fe_get_sample_zone, fe_is_stable_zone, fe_zone_to_logic_state]
  decide

example :
    remove_short_diff_0s 5 [(0, 1), (2, 0), (3, 1), (10, -1)] =
      .ok [(0, 1), (5/2, 1), (3, 1), (10, -1)] := by
  norm_num [remove_short_diff_0s, rsd_loop]

example :
    remove_short_diff_0s 5 [(0, 1), (2, 0), (3, 1), (10, 0)] =
      .ok [(0, 1), (5/2, 1), (10, 0)] := by
  norm_num [remove_short_diff_0s, rsd_loop]

example :
    remove_short_diff_0s 5 [(0, 1), (2, 0), (9, 1), (10, -1)] =
      .ok [(0, 1), (2, 0), (9, 1), (10, -1)] := by
  norm_num [remove_short_diff_0s, rsd_loop]

end Ripyl
